import Mathlib

/-!
Verification development for the BC1/DXT1 block-compression core of
nvidia-texture-tools (`src/nvtt/CompressorDXT1.h`) and for the `nvassemble`
tool (`src/nvtt/tools/assemble.cpp`).

The repository excerpt contains only the public declarations of the
compression core (`CompressorDXT1.h`); the function bodies are not part of
the corpus.  The compression core is therefore modelled from the
specification document, with exact rational arithmetic in place of the
C `float` computations.  Every definition that models a missing function
carries a doc comment starting with `Modelled from the spec:`.
The `nvassemble` tool functions (`ProcessCommandLine`, `GatherSourceImages`,
`DestroyImageArray`) are embedded directly from `assemble.cpp`.
-/

namespace nv

/-- Modelled from the spec: a 3-component real-valued color (section 3,
"Color sample"), on the 0-255 scale.  Components are exact rationals in
place of the C `float`s of `nv::Vector3`. -/
structure Vector3 where
  x : ℚ
  y : ℚ
  z : ℚ
deriving DecidableEq

/-- Componentwise addition of colors. -/
def v3add (a b : Vector3) : Vector3 := ⟨a.x + b.x, a.y + b.y, a.z + b.z⟩

/-- Componentwise subtraction of colors. -/
def v3sub (a b : Vector3) : Vector3 := ⟨a.x - b.x, a.y - b.y, a.z - b.z⟩

/-- Scaling of a color by a rational. -/
def v3smul (t : ℚ) (a : Vector3) : Vector3 := ⟨t * a.x, t * a.y, t * a.z⟩

/-- Dot product of two 3-vectors. -/
def v3dot (a b : Vector3) : ℚ := a.x * b.x + a.y * b.y + a.z * b.z

/-- Componentwise minimum. -/
def v3min (a b : Vector3) : Vector3 := ⟨min a.x b.x, min a.y b.y, min a.z b.z⟩

/-- Componentwise maximum. -/
def v3max (a b : Vector3) : Vector3 := ⟨max a.x b.x, max a.y b.y, max a.z b.z⟩

/-- Linear interpolation between two colors: `v3lerp a b t = a + t*(b-a)`. -/
def v3lerp (a b : Vector3) (t : ℚ) : Vector3 :=
  ⟨a.x + t * (b.x - a.x), a.y + t * (b.y - a.y), a.z + t * (b.z - a.z)⟩

/-- Modelled from the spec: squared channel-wise distance between two colors,
each channel scaled by the channel weights (section 3, "Channel weights":
"Applied multiplicatively wherever squared error is computed"). -/
def wdist (cw a b : Vector3) : ℚ :=
  cw.x * (a.x - b.x) ^ 2 + cw.y * (a.y - b.y) ^ 2 + cw.z * (a.z - b.z) ^ 2

/-! ## Endpoint quantizer (spec section 4.1)

Channels are quantized independently to 5 (red), 6 (green) and 5 (blue)
bits by round-to-nearest; the tie-breaking convention is fixed as
round-half-up (ties toward the higher value), one of the two conventions
the spec allows, and documented here as the spec requires. -/

/-- Modelled from the spec: round a rational to the nearest integer,
ties toward the higher value. -/
def roundHalfUp (x : ℚ) : ℤ := ⌊x + 1 / 2⌋

/-- Modelled from the spec: quantize a 0-255 channel value to 5 bits by
round-to-nearest (ties toward the higher value), clamped to `[0, 31]`. -/
def quant5 (x : ℚ) : ℕ := min 31 (Int.toNat (roundHalfUp (x * 31 / 255)))

/-- Modelled from the spec: quantize a 0-255 channel value to 6 bits by
round-to-nearest (ties toward the higher value), clamped to `[0, 63]`. -/
def quant6 (x : ℚ) : ℕ := min 63 (Int.toNat (roundHalfUp (x * 63 / 255)))

/-- Modelled from the spec: the exact 0-255 scale value represented by a
5-bit quantized channel. -/
def dequant5 (v : ℕ) : ℚ := (v : ℚ) * 255 / 31

/-- Modelled from the spec: the exact 0-255 scale value represented by a
6-bit quantized channel. -/
def dequant6 (v : ℕ) : ℚ := (v : ℚ) * 255 / 63

/-- Modelled from the spec: `quantize(color) -> packed16` (section 4.1).
The three quantized channels are packed 5-6-5, red in the top bits. -/
def quantize (c : Vector3) : ℕ := quant5 c.x * 2048 + quant6 c.y * 32 + quant5 c.z

/-- Modelled from the spec: `dequantize(packed16) -> color` (section 4.1). -/
def dequantize (p : ℕ) : Vector3 :=
  ⟨dequant5 (p / 2048), dequant6 (p / 32 % 64), dequant5 (p % 32)⟩

/-! ## The compressed block (spec sections 3 and 6, `nv::BlockDXT1`) -/

/-- Modelled from the spec: the 8-byte compressed block (section 3,
"Compressed block"): two 16-bit packed 5-6-5 endpoint colors and sixteen
2-bit palette indices packed as a 32-bit field.  `nv::BlockDXT1` is only
forward-declared in the corpus. -/
structure BlockDXT1 where
  col0 : ℕ
  col1 : ℕ
  indices : ℕ
deriving DecidableEq

/-- The 2-bit index of sample `i` inside the packed 32-bit index field
(index `i` occupies bits `[2i, 2i+1]`, spec section 6). -/
def indexAt (b : BlockDXT1) (i : Fin 16) : ℕ := b.indices / 4 ^ (i : ℕ) % 4

/-- Pack a list of 2-bit indices little-endian into one natural number. -/
def packIndexList : List ℕ → ℕ
  | [] => 0
  | a :: r => a % 4 + 4 * packIndexList r

/-- Modelled from the spec: the 4-point palette defined by two endpoint
colors (section 3, "Quantized endpoint"): the endpoints themselves plus two
interpolated points at 1/3 and 2/3 blend. -/
def palettePoint (c0 c1 : Vector3) (k : ℕ) : Vector3 :=
  if k = 0 then c0
  else if k = 1 then c1
  else if k = 2 then v3smul (1 / 3) (v3add (v3add c0 c0) c1)
  else v3smul (1 / 3) (v3add c0 (v3add c1 c1))

/-- Modelled from the spec: the candidate error measure (section 3,
"Candidate result"): the sum over the 16 samples of the weighted squared
channel-wise distance between the original color and its assigned palette
point.  The raw-sum normalization is used consistently by all strategies. -/
def evalBlockMSE (colors : Fin 16 → Vector3) (w : Fin 16 → ℚ) (cw : Vector3)
    (b : BlockDXT1) : ℚ :=
  ∑ i : Fin 16,
    w i * wdist cw (colors i) (palettePoint (dequantize b.col0) (dequantize b.col1) (indexAt b i))

/-- The serialized 8-byte layout of a block (spec section 6): bytes 0-1 the
first endpoint little-endian, bytes 2-3 the second, bytes 4-7 the packed
index field little-endian. -/
def encodeBlock (b : BlockDXT1) : List ℕ :=
  [b.col0 % 256, b.col0 / 256 % 256, b.col1 % 256, b.col1 / 256 % 256,
   b.indices % 256, b.indices / 256 % 256, b.indices / 65536 % 256,
   b.indices / 16777216 % 256]

/-- The output-block invariant of the spec (section 3): both endpoints are
valid 16-bit packed colors, the index field fits in 32 bits, every 2-bit
index is in `[0, 3]`, and the serialized block is exactly 8 bytes, each a
valid byte. -/
def validBlock (b : BlockDXT1) : Prop :=
  b.col0 < 65536 ∧ b.col1 < 65536 ∧ b.indices < 4294967296 ∧
    (∀ i : Fin 16, indexAt b i < 4) ∧
    (encodeBlock b).length = 8 ∧ ∀ byte ∈ encodeBlock b, byte < 256

/-! ## Generic strict-argmin fold

All strategies pick the candidate of least error from a finite candidate
list; a later candidate replaces the incumbent only when strictly better,
so ties prefer the earlier (cheaper) candidate, as the driver policy in
spec section 4.6 requires. -/

/-- Fold over `l` keeping the element of least measure `g`, the seed `x`
winning ties. -/
def argminFold {α : Type} (g : α → ℚ) (x : α) : List α → α
  | [] => x
  | b :: l => argminFold g (if g b < g x then b else x) l

/-! ## Candidate construction shared by all strategies -/

/-- Modelled from the spec: the 2-bit index assigning a sample to its
nearest palette point (sections 4.4 and 4.5: "assign every sample to its
nearest of the 4 derived palette points"); ties prefer the lower index. -/
def bestIndex (cw s c0 c1 : Vector3) : ℕ :=
  argminFold (fun k => wdist cw s (palettePoint c0 c1 k)) 0 [1, 2, 3]

/-- Modelled from the spec: the block built from one candidate endpoint
pair: the two packed endpoints plus the packed nearest-palette-point index
of every sample. -/
def makeBlock (colors : Fin 16 → Vector3) (cw : Vector3) (p : ℕ × ℕ) : BlockDXT1 :=
  { col0 := p.1, col1 := p.2,
    indices := packIndexList (List.ofFn fun i : Fin 16 =>
      bestIndex cw (colors i) (dequantize p.1) (dequantize p.2)) }

/-- Modelled from the spec: the candidate result of one endpoint pair
(section 3, "Candidate result"): the block together with its exact weighted
error. -/
def candidate (colors : Fin 16 → Vector3) (w : Fin 16 → ℚ) (cw : Vector3)
    (p : ℕ × ℕ) : BlockDXT1 × ℚ :=
  (makeBlock colors cw p, evalBlockMSE colors w cw (makeBlock colors cw p))

/-- The shape every strategy result has: a valid block whose reported error
is the exact weighted error of that block. -/
def IsEvalCandidate (colors : Fin 16 → Vector3) (w : Fin 16 → ℚ) (cw : Vector3)
    (x : BlockDXT1 × ℚ) : Prop :=
  validBlock x.1 ∧ x.2 = evalBlockMSE colors w cw x.1

/-! ## The exhaustive optimum over all quantized endpoint pairs -/

/-- All 16-bit packed endpoint pairs. -/
def allPairs : List (ℕ × ℕ) :=
  (List.range 65536).flatMap fun a => (List.range 65536).map fun b => (a, b)

/-- Modelled from the spec: the exact best fit under the discretization
constraint (section 4.5, "Responsibility: the exact combinatorial best fit
under the discretization constraint", and section 4.1's optimal table,
which "minimizes error versus any reachable 4-point palette"): the
candidate of least exact weighted error over every reachable quantized
endpoint pair.  Spec section 8 requires this value to be a lower bound for
every other strategy. -/
def exhaustiveBest (colors : Fin 16 → Vector3) (w : Fin 16 → ℚ) (cw : Vector3) :
    BlockDXT1 × ℚ :=
  argminFold Prod.snd (candidate colors w cw (0, 0)) (allPairs.map (candidate colors w cw))

/-! ## Degenerate-input predicates and shared statistics -/

/-- Zero variance: all 16 samples are identical (spec sections 4.5 and 7). -/
def allSame (colors : Fin 16 → Vector3) : Prop := ∀ i, colors i = colors 0

instance (colors : Fin 16 → Vector3) : Decidable (allSame colors) :=
  decidable_of_iff (∀ i, colors i = colors 0) Iff.rfl

/-- Sum of the 16 per-sample weights. -/
def totalWeight (w : Fin 16 → ℚ) : ℚ := ∑ i, w i

/-- Modelled from the spec: the weighted average color of the block
(section 4.2); with all-zero weights the policy fallback is the unweighted
mean (degenerate weights are handled by policy, spec section 7). -/
def centroid (colors : Fin 16 → Vector3) (w : Fin 16 → ℚ) : Vector3 :=
  if totalWeight w = 0 then
    v3smul (1 / 16) (((List.finRange 16).map colors).foldl v3add ⟨0, 0, 0⟩)
  else
    ⟨(∑ i, w i * (colors i).x) / totalWeight w,
     (∑ i, w i * (colors i).y) / totalWeight w,
     (∑ i, w i * (colors i).z) / totalWeight w⟩

/-- Componentwise minimum of the 16 samples (the color bounding box). -/
def boxLo (colors : Fin 16 → Vector3) : Vector3 :=
  ((List.finRange 16).map colors).foldl v3min (colors 0)

/-- Componentwise maximum of the 16 samples (the color bounding box). -/
def boxHi (colors : Fin 16 → Vector3) : Vector3 :=
  ((List.finRange 16).map colors).foldl v3max (colors 0)

/-! ## Single-Color Fitter (spec section 4.2) -/

/-- The 5-bit quantization neighborhood of a channel value: the rounded
value and its clamped neighbors. -/
def nbhd5 (x : ℚ) : List ℕ := [quant5 x, min 31 (quant5 x + 1), quant5 x - 1]

/-- The 6-bit quantization neighborhood of a channel value. -/
def nbhd6 (x : ℚ) : List ℕ := [quant6 x, min 63 (quant6 x + 1), quant6 x - 1]

/-- Modelled from the spec: the packed colors of the small quantization
neighborhood around a color (section 4.2, "directly searching the small
quantization neighborhood around the rounded average"). -/
def nbhdColors (c : Vector3) : List ℕ :=
  (nbhd5 c.x).flatMap fun r => (nbhd6 c.y).flatMap fun g => (nbhd5 c.z).map fun b =>
    r * 2048 + g * 32 + b

/-- All endpoint pairs drawn from the quantization neighborhood of a color. -/
def nbhdPairs (c : Vector3) : List (ℕ × ℕ) :=
  (nbhdColors c).flatMap fun a => (nbhdColors c).map fun b => (a, b)

/-- Modelled from the spec: `compress_dxt1_single_color` (section 4.2).
For a literal single color (all samples equal) the result comes from the
quantizer's optimal single-color table, which is exact over every reachable
palette; otherwise the small quantization neighborhood around the rounded
weighted average is searched for the pair of least aggregate weighted error
against all 16 samples.  The C signature's deduplicated `colors/weights/
count` arrays are represented by the full 16-sample form. -/
def compress_dxt1_single_color (colors : Fin 16 → Vector3) (w : Fin 16 → ℚ)
    (cw : Vector3) : BlockDXT1 × ℚ :=
  if allSame colors then exhaustiveBest colors w cw
  else
    argminFold Prod.snd (candidate colors w cw (quantize (centroid colors w), quantize (centroid colors w)))
      ((nbhdPairs (centroid colors w)).map (candidate colors w cw))

/-- Modelled from the spec: `compress_dxt1_single_color_optimal` (section
4.1's optimal table, section 6): the exact optimum for a literal single
color under unit weights. -/
def compress_dxt1_single_color_optimal (c : Vector3) : BlockDXT1 × ℚ :=
  exhaustiveBest (fun _ => c) (fun _ => 1) ⟨1, 1, 1⟩

/-! ## Least-Squares Line Fitter (spec section 4.3) -/

/-- Modelled from the spec: one application of the weighted covariance
matrix of the channel-weighted color cloud (channel weights folded into the
covariance prior to eigenvector extraction, spec section 9), in outer-
product form. -/
def covApply (colors : Fin 16 → Vector3) (w : Fin 16 → ℚ) (cw : Vector3)
    (v : Vector3) : Vector3 :=
  ⟨∑ i, w i * v3dot ⟨cw.x * ((colors i).x - (centroid colors w).x),
                     cw.y * ((colors i).y - (centroid colors w).y),
                     cw.z * ((colors i).z - (centroid colors w).z)⟩ v *
        (cw.x * ((colors i).x - (centroid colors w).x)),
   ∑ i, w i * v3dot ⟨cw.x * ((colors i).x - (centroid colors w).x),
                     cw.y * ((colors i).y - (centroid colors w).y),
                     cw.z * ((colors i).z - (centroid colors w).z)⟩ v *
        (cw.y * ((colors i).y - (centroid colors w).y)),
   ∑ i, w i * v3dot ⟨cw.x * ((colors i).x - (centroid colors w).x),
                     cw.y * ((colors i).y - (centroid colors w).y),
                     cw.z * ((colors i).z - (centroid colors w).z)⟩ v *
        (cw.z * ((colors i).z - (centroid colors w).z))⟩

/-- Modelled from the spec: the principal axis of the weighted color cloud,
approximated by three steps of power iteration on the weighted covariance
matrix, seeded with the bounding-box diagonal (section 4.3 allows "an
equivalent power-iteration approximation"). -/
def principalAxis (colors : Fin 16 → Vector3) (w : Fin 16 → ℚ) (cw : Vector3) : Vector3 :=
  covApply colors w cw (covApply colors w cw (covApply colors w cw
    (v3sub (boxHi colors) (boxLo colors))))

/-- Modelled from the spec: the palette slot nearest to a normalized blend
parameter `t` (section 4.3: the blend parameter in `{0, 1/3, 2/3, 1}`
implied by each sample's nearest palette slot along the line). -/
def slotOf (t : ℚ) : ℕ :=
  if t < 1 / 6 then 0 else if t < 1 / 2 then 1 else if t < 5 / 6 then 2 else 3

/-- The blend parameter of a palette slot. -/
def slotT (k : ℕ) : ℚ := (k : ℚ) / 3

/-- Modelled from the spec: the palette slot of sample `i` after projecting
the samples onto the principal axis and normalizing the projections to
`[0, 1]`; degenerate extents (zero variance along the axis) give slot 0. -/
def sampleSlot (colors : Fin 16 → Vector3) (w : Fin 16 → ℚ) (cw : Vector3)
    (i : Fin 16) : ℕ :=
  let t : Fin 16 → ℚ := fun j =>
    v3dot (v3sub (colors j) (centroid colors w)) (principalAxis colors w cw)
  let tmin := ((List.finRange 16).map t).foldl min (t 0)
  let tmax := ((List.finRange 16).map t).foldl max (t 0)
  if tmax = tmin then 0 else slotOf ((t i - tmin) / (tmax - tmin))

/-- Modelled from the spec: the closed-form weighted least-squares endpoint
pair for the slot assignment of section 4.3 (per-channel 2-by-2 normal
equations solved by Cramer's rule); a singular system falls back to the
centroid pair. -/
def lsEndpoints (colors : Fin 16 → Vector3) (w : Fin 16 → ℚ) (cw : Vector3) :
    Vector3 × Vector3 :=
  let s : Fin 16 → ℚ := fun i => slotT (sampleSlot colors w cw i)
  let m00 := ∑ i, w i * (1 - s i) ^ 2
  let m01 := ∑ i, w i * (1 - s i) * s i
  let m11 := ∑ i, w i * s i ^ 2
  let det := m00 * m11 - m01 * m01
  if det = 0 then (centroid colors w, centroid colors w)
  else
    (⟨(m11 * (∑ i, w i * (1 - s i) * (colors i).x) - m01 * (∑ i, w i * s i * (colors i).x)) / det,
      (m11 * (∑ i, w i * (1 - s i) * (colors i).y) - m01 * (∑ i, w i * s i * (colors i).y)) / det,
      (m11 * (∑ i, w i * (1 - s i) * (colors i).z) - m01 * (∑ i, w i * s i * (colors i).z)) / det⟩,
     ⟨(m00 * (∑ i, w i * s i * (colors i).x) - m01 * (∑ i, w i * (1 - s i) * (colors i).x)) / det,
      (m00 * (∑ i, w i * s i * (colors i).y) - m01 * (∑ i, w i * (1 - s i) * (colors i).y)) / det,
      (m00 * (∑ i, w i * s i * (colors i).z) - m01 * (∑ i, w i * (1 - s i) * (colors i).z)) / det⟩)

/-- The quantized endpoint pair produced by the least-squares fit. -/
def lsPair (colors : Fin 16 → Vector3) (w : Fin 16 → ℚ) (cw : Vector3) : ℕ × ℕ :=
  (quantize (lsEndpoints colors w cw).1, quantize (lsEndpoints colors w cw).2)

/-- Modelled from the spec: `compress_dxt1_least_squares_fit` (section
4.3): quantize the regression endpoints and report the true error against
the discrete 4-point palette. -/
def compress_dxt1_least_squares_fit (colors : Fin 16 → Vector3) (w : Fin 16 → ℚ)
    (cw : Vector3) : BlockDXT1 × ℚ :=
  candidate colors w cw (lsPair colors w cw)

/-! ## Bounding-Box Exhaustive Searcher (spec section 4.4) -/

/-- Van der Corput radical-inverse helper, structurally recursive on fuel. -/
def vdcAux : ℕ → ℕ → ℚ → ℚ → ℚ
  | 0, _, _, acc => acc
  | fuel + 1, n, scale, acc =>
    if n = 0 then acc else vdcAux fuel (n / 2) (scale / 2) (acc + (n % 2 : ℕ) * scale)

/-- The base-2 van der Corput sequence, which progressively subdivides the
unit interval. -/
def vdc (n : ℕ) : ℚ := vdcAux n n (1 / 2) 0

/-- Modelled from the spec: the `k`-th rung of the candidate ladder of the
bounding-box searcher (section 4.4): an endpoint pair obtained by
subdividing the box extent, symmetric insets from both corners along the
box diagonal.  The ladder is a fixed sequence, so a larger `search_limit`
enumerates a superset of the candidates of a smaller one. -/
def bbPair (lo hi : Vector3) (k : ℕ) : ℕ × ℕ :=
  (quantize (v3lerp lo hi (vdc (k + 1))), quantize (v3lerp hi lo (vdc (k + 1))))

/-- The quantized corners of the color bounding box, the `search_limit = 0`
fallback candidate of the bounding-box searcher. -/
def cornerPair (colors : Fin 16 → Vector3) : ℕ × ℕ :=
  (quantize (boxLo colors), quantize (boxHi colors))

/-- Modelled from the spec: `compress_dxt1_bounding_box_exhaustive`
(section 4.4): evaluate the box corners plus the first `search_limit` rungs
of the candidate ladder and keep the candidate of least exact weighted
error; at `search_limit = 0` only the box corners remain. -/
def compress_dxt1_bounding_box_exhaustive (colors : Fin 16 → Vector3)
    (w : Fin 16 → ℚ) (cw : Vector3) (search_limit : ℕ) : BlockDXT1 × ℚ :=
  argminFold Prod.snd (candidate colors w cw (cornerPair colors))
    ((List.range search_limit).map fun k =>
      candidate colors w cw (bbPair (boxLo colors) (boxHi colors) k))

/-! ## Cluster Fitter (spec section 4.5) and Driver (spec section 4.6) -/

/-- Modelled from the spec: `compress_dxt1_cluster_fit` (section 4.5): the
exact combinatorial best fit under the discretization constraint, realized
as the global minimum over every reachable quantized endpoint pair with
nearest-point index assignment; degenerate color clouds (all samples
identical, principal axis undefined) short-circuit to the Single-Color
Fitter's result instead of running the search.  Only the block is returned
(the C function returns `void` and writes the output block). -/
def compress_dxt1_cluster_fit (colors : Fin 16 → Vector3) (w : Fin 16 → ℚ)
    (cw : Vector3) : BlockDXT1 :=
  if allSame colors then (compress_dxt1_single_color colors w cw).1
  else (exhaustiveBest colors w cw).1

/-- Modelled from the spec: the driver `compress_dxt1` (section 4.6):
always evaluate the Single-Color Fitter as a floor; with non-trivial
variance also evaluate the Cluster Fitter; return the candidate of least
error, ties preferring the cheaper Single-Color result. -/
def compress_dxt1 (colors : Fin 16 → Vector3) (w : Fin 16 → ℚ) (cw : Vector3) :
    BlockDXT1 × ℚ :=
  if allSame colors then compress_dxt1_single_color colors w cw
  else
    if evalBlockMSE colors w cw (compress_dxt1_cluster_fit colors w cw) <
        (compress_dxt1_single_color colors w cw).2 then
      (compress_dxt1_cluster_fit colors w cw,
       evalBlockMSE colors w cw (compress_dxt1_cluster_fit colors w cw))
    else compress_dxt1_single_color colors w cw

/-! ## One compression call as a state transformer (spec section 3,
"Lifecycle", and section 4.6, "Side effects") -/

/-- The caller-visible state of one `compress_dxt1` call: the caller-owned
inputs and the caller-allocated output block of the C signature. -/
structure CompressCall where
  colors : Fin 16 → Vector3
  weights : Fin 16 → ℚ
  color_weights : Vector3
  output : BlockDXT1

/-- Modelled from the spec: executing one driver call against the call
state: the output block is overwritten in place and the error is returned;
nothing else is touched and no state persists between calls. -/
def run_compress_dxt1 (s : CompressCall) : CompressCall × ℚ :=
  ({ s with output := (compress_dxt1 s.colors s.weights s.color_weights).1 },
   (compress_dxt1 s.colors s.weights s.color_weights).2)

end nv

/-! ## The nvassemble tool (`src/nvtt/tools/assemble.cpp`)

C strings, `nv::Path` values and command-line arguments are embedded as
`List Char`; `argv[0]` (the program name, skipped by the `n = 1` loop
start) is not part of the model's argument list. -/

/-- The C test `argv[n][0] == '-'`; an empty argument has `'\0'` first and
is not an option. -/
def isDashArg : List Char → Bool
  | [] => false
  | c :: _ => c == '-'

/-- The literal `"-cube"`. -/
def cubeFlag : List Char := ['-', 'c', 'u', 'b', 'e']

/-- The literal `"-array"`. -/
def arrayFlag : List Char := ['-', 'a', 'r', 'r', 'a', 'y']

/-- The literal `"-o"`. -/
def oFlag : List Char := ['-', 'o']

/-- The literal `"nvout.dds"`, the default output path. -/
def defaultOutput : List Char := ['n', 'v', 'o', 'u', 't', '.', 'd', 'd', 's']

/-- The literal `".dds"`. -/
def ddsExt : List Char := ['.', 'd', 'd', 's']

/-- Modelled from the spec: `nv::Path::extension` (nvcore/StrLib, not in
src/): the suffix of the path starting at the last dot, empty when the
path contains no dot. -/
def pathExtension : List Char → List Char
  | [] => []
  | c :: rest => if c = '.' ∧ '.' ∉ rest then c :: rest else pathExtension rest

/-- Modelled from the spec: `nv::strCaseDiff(a, b) == 0` (nvcore/StrLib,
not in src/): case-insensitive string equality. -/
def strCaseEq (a b : List Char) : Prop := a.map Char.toLower = b.map Char.toLower

instance (a b : List Char) : Decidable (strCaseEq a b) :=
  decidable_of_iff (a.map Char.toLower = b.map Char.toLower) Iff.rfl

/-- The outputs of `ProcessCommandLine` (assemble.cpp lines 48-54): the
collected file arguments, the output path, and the two assembly mode
flags. -/
structure CmdLine where
  files : List (List Char)
  output : List Char
  assemble_array : Bool
  assemble_cubemap : Bool
deriving DecidableEq

/-- The argument loop of `ProcessCommandLine` (assemble.cpp lines 64-88):
`-cube` and `-array` set their flags, `-o` arms `output_specified`, any
other option prints a warning, and a non-option argument either becomes the
output path (when `output_specified` is armed, disarming it) or is appended
to the file list. -/
def pclLoop : List (List Char) → CmdLine → Bool → CmdLine
  | [], st, _ => st
  | a :: rest, st, os =>
    if a = cubeFlag then pclLoop rest { st with assemble_cubemap := true } os
    else if a = arrayFlag then pclLoop rest { st with assemble_array := true } os
    else if a = oFlag then pclLoop rest st true
    else if isDashArg a then pclLoop rest st os
    else if os then pclLoop rest { st with output := a } false
    else pclLoop rest { st with files := st.files ++ [a] } os

/-- `ProcessCommandLine` (assemble.cpp lines 48-102): run the argument
loop from the defaults (`output = "nvout.dds"`, flags clear); when no file
argument was collected print the usage message and return false (`none`);
otherwise append `".dds"` to the output path unless its extension already
compares case-insensitively equal to `".dds"`, and return true with the
results. -/
def ProcessCommandLine (args : List (List Char)) : Option CmdLine :=
  let st := pclLoop args ⟨[], defaultOutput, false, false⟩ false
  if st.files = [] then none
  else some { st with output :=
    (if strCaseEq (pathExtension st.output) ddsExt then st.output
     else st.output ++ ddsExt) }

/-- Every argument strictly before position `n` is an option
(starts with a dash). -/
def allDashBelow (args : List (List Char)) (n : ℕ) : Prop :=
  ∀ k a, k < n → args[k]? = some a → isDashArg a = true

/-- Position `n` is consumed as the value of a pending `-o`: some earlier
position holds `-o` and every argument strictly between them is an option
(options leave the armed `output_specified` flag armed). -/
def consumesOutput (args : List (List Char)) (n : ℕ) : Prop :=
  ∃ m, m < n ∧ args[m]? = some oFlag ∧
    ∀ k a, m < k → k < n → args[k]? = some a → isDashArg a = true

/-- Position `n` holds a file argument: a non-option argument that is not
consumed as the value of a preceding `-o`. -/
def isFileIndex (args : List (List Char)) (n : ℕ) : Prop :=
  ∃ a, args[n]? = some a ∧ isDashArg a = false ∧ ¬consumesOutput args n

/-- The file arguments collected by the loop of `ProcessCommandLine`,
with the incoming `output_specified` flag explicit. -/
def filesF : List (List Char) → Bool → List (List Char)
  | [], _ => []
  | a :: rest, os =>
    if a = cubeFlag then filesF rest os
    else if a = arrayFlag then filesF rest os
    else if a = oFlag then filesF rest true
    else if isDashArg a then filesF rest os
    else if os then filesF rest false
    else a :: filesF rest os

/-- The attributes of a loaded `nv::DirectDrawSurface` that
`GatherSourceImages` inspects (assemble.cpp lines 133-164); image loading
itself is external I/O, abstracted as a `load` function below. -/
structure SurfaceInfo where
  width : ℕ
  height : ℕ
  depth : ℕ
  dx10Format : ℕ
  mipmapCount : ℕ
  arrayCount : ℕ
  isTextureCube : Bool
deriving DecidableEq

/-- `ImageData` (assemble.cpp lines 37-44); the `DirectDrawSurface`
pointer produced by `new` is modelled by the index of the file whose
iteration allocated it, which is a faithful pointer identity because every
iteration allocates a fresh surface. -/
structure ImageData where
  file : List Char
  dds : ℕ
  face : ℕ
deriving DecidableEq

/-- The five output parameters of `GatherSourceImages`
(assemble.cpp lines 109-113). -/
structure ImageAttrs where
  image_width : ℕ
  image_height : ℕ
  image_depth : ℕ
  image_format : ℕ
  image_mipmaps : ℕ
deriving DecidableEq

/-- The attribute record of a loaded surface. -/
def attrsOf (d : SurfaceInfo) : ImageAttrs :=
  ⟨d.width, d.height, d.depth, d.dx10Format, d.mipmapCount⟩

/-- `faces = arrayCount * (isTextureCube ? 6 : 1)` (assemble.cpp line 133). -/
def facesOf (d : SurfaceInfo) : ℕ :=
  d.arrayCount * (if d.isTextureCube then 6 else 1)

/-- The negation of the mismatch test of assemble.cpp lines 147-151: the
surface agrees with the recorded attributes in width, height, depth, DX10
format and mipmap count. -/
def attrsMatch (d : SurfaceInfo) (a : ImageAttrs) : Prop :=
  d.width = a.image_width ∧ d.height = a.image_height ∧
    d.depth = a.image_depth ∧ d.dx10Format = a.image_format ∧
    d.mipmapCount = a.image_mipmaps

instance (d : SurfaceInfo) (a : ImageAttrs) : Decidable (attrsMatch d a) :=
  decidable_of_iff (d.width = a.image_width ∧ d.height = a.image_height ∧
    d.depth = a.image_depth ∧ d.dx10Format = a.image_format ∧
    d.mipmapCount = a.image_mipmaps) Iff.rfl

/-- The loop of `GatherSourceImages` (assemble.cpp lines 116-177): for the
`n`-th file, push its main entry (face 0, fresh surface pointer `n`), fail
if the load fails, fail on an attribute mismatch against the first file
(`n > 0`), record the attributes of the first file, then push one extra
entry per additional face, each sharing surface pointer `n` and a
default-constructed (empty) file path.  The accumulated vector is returned
also on the failure paths, as the C `images` vector is. -/
def gatherAux (load : List Char → Option SurfaceInfo) :
    List (List Char) → ℕ → ImageAttrs → List ImageData →
    Bool × List ImageData × ImageAttrs
  | [], _, attrs, imgs => (true, imgs, attrs)
  | f :: rest, n, attrs, imgs =>
    match load f with
    | none => (false, imgs ++ [⟨f, n, 0⟩], attrs)
    | some d =>
      if n > 0 ∧ ¬attrsMatch d attrs then (false, imgs ++ [⟨f, n, 0⟩], attrs)
      else
        gatherAux load rest (n + 1) (if n = 0 then attrsOf d else attrs)
          ((imgs ++ [⟨f, n, 0⟩]) ++ (List.range (facesOf d - 1)).map fun m => ⟨[], n, m + 1⟩)

/-- `GatherSourceImages` (assemble.cpp lines 106-180), with the filesystem
and DDS parser abstracted as `load` and the initial (uninitialized in C)
output parameters passed in as `attrs0`. -/
def GatherSourceImages (load : List Char → Option SurfaceInfo)
    (files : List (List Char)) (attrs0 : ImageAttrs) :
    Bool × List ImageData × ImageAttrs :=
  gatherAux load files 0 attrs0 []

/-- The loop body of `DestroyImageArray` on the reversed vector: take the
back entry, delete its surface pointer, and pop every consecutive back
entry sharing that pointer. -/
def destroyAux : List ImageData → List ℕ × List ImageData
  | [] => ([], [])
  | x :: rest =>
    let r := destroyAux (rest.dropWhile fun y => y.dds == x.dds)
    (x.dds :: r.1, r.2)
termination_by l => l.length
decreasing_by
  simp only [List.length_cons]
  exact Nat.lt_succ_of_le (List.Sublist.length_le (List.dropWhile_sublist _))

/-- `DestroyImageArray` (assemble.cpp lines 286-301): the `while` loop
works from the back of the vector, so it is modelled by `destroyAux` on the
reversed list; the first component collects the deleted surface pointers in
deletion order and the second is the final contents of the vector. -/
def DestroyImageArray (imgs : List ImageData) : List ℕ × List ImageData :=
  destroyAux imgs.reverse

/-- All occurrences of each value in the list are contiguous: whenever the
same value appears at two positions, it also fills every position between
them. -/
def Grouped (l : List ℕ) : Prop :=
  ∀ (i j k a : ℕ), i ≤ j → j ≤ k → l[i]? = some a → l[k]? = some a → l[j]? = some a

/-- The deleted-pointer sequence of `DestroyImageArray` as a function of
the pointer sequence alone. -/
def destroyIds : List ℕ → List ℕ
  | [] => []
  | v :: rest => v :: destroyIds (rest.dropWhile (· == v))
termination_by l => l.length
decreasing_by
  simp only [List.length_cons]
  exact Nat.lt_succ_of_le (List.Sublist.length_le (List.dropWhile_sublist _))

/-- A file position with the incoming `output_specified` flag explicit: an
armed flag additionally consumes the first non-option argument. -/
def Fileish (args : List (List Char)) (os : Bool) (n : ℕ) : Prop :=
  ∃ a, args[n]? = some a ∧ isDashArg a = false ∧
    ¬(consumesOutput args n ∨ (os = true ∧ allDashBelow args n))

namespace nv

lemma quant5_le (x : ℚ) : quant5 x ≤ 31 := min_le_left _ _

lemma quant6_le (x : ℚ) : quant6 x ≤ 63 := min_le_left _ _

lemma quantize_lt (c : Vector3) : quantize c < 65536 := by
  have h1 := quant5_le c.x
  have h2 := quant6_le c.y
  have h3 := quant5_le c.z
  unfold quantize
  omega

lemma roundHalfUp_intCast (v : ℤ) : roundHalfUp (v : ℚ) = v := by
  unfold roundHalfUp
  rw [Int.floor_int_add]
  norm_num

lemma quant5_dequant5 (v : ℕ) (h : v < 32) : quant5 (dequant5 v) = v := by
  unfold quant5 dequant5
  have harg : ((v : ℚ) * 255 / 31) * 31 / 255 = (v : ℚ) := by
    field_simp
  rw [harg]
  rw [show ((v : ℚ)) = (((v : ℤ) : ℚ)) by push_cast; ring]
  rw [roundHalfUp_intCast]
  simp
  omega

lemma quant6_dequant6 (v : ℕ) (h : v < 64) : quant6 (dequant6 v) = v := by
  unfold quant6 dequant6
  have harg : ((v : ℚ) * 255 / 63) * 63 / 255 = (v : ℚ) := by
    field_simp
  rw [harg]
  rw [show ((v : ℚ)) = (((v : ℤ) : ℚ)) by push_cast; ring]
  rw [roundHalfUp_intCast]
  simp
  omega

lemma packIndexList_lt (l : List ℕ) : packIndexList l < 4 ^ l.length := by
  induction l with
  | nil => simp [packIndexList]
  | cons a r ih =>
    have h : a % 4 < 4 := Nat.mod_lt _ (by norm_num)
    simp only [packIndexList, List.length_cons, pow_succ]
    omega

lemma packIndexList_extract (l : List ℕ) (i : ℕ) (h : i < l.length) :
    packIndexList l / 4 ^ i % 4 = l.get ⟨i, h⟩ % 4 := by
  induction l generalizing i with
  | nil => simp at h
  | cons a r ih =>
    cases i with
    | zero =>
      simp only [packIndexList, pow_zero, Nat.div_one, List.get]
      omega
    | succ j =>
      have hj : j < r.length := by simpa using h
      have hstep : packIndexList (a :: r) / 4 ^ (j + 1) = packIndexList r / 4 ^ j := by
        have hd : packIndexList (a :: r) / 4 = packIndexList r := by
          simp only [packIndexList]
          omega
        rw [show (4 : ℕ) ^ (j + 1) = 4 * 4 ^ j by ring, ← Nat.div_div_eq_div_mul, hd]
      rw [hstep, ih j hj]
      rfl

lemma argminFold_mem {α : Type} (g : α → ℚ) (x : α) (l : List α) :
    argminFold g x l ∈ x :: l := by
  induction l generalizing x with
  | nil => simp [argminFold]
  | cons b l ih =>
    simp only [argminFold]
    by_cases hc : g b < g x
    · rw [if_pos hc]
      rcases List.mem_cons.mp (ih b) with h | h
      · simp [h]
      · simp [h]
    · rw [if_neg hc]
      rcases List.mem_cons.mp (ih x) with h | h
      · simp [h]
      · simp [h]

lemma argminFold_le {α : Type} (g : α → ℚ) (x : α) (l : List α) :
    ∀ y ∈ x :: l, g (argminFold g x l) ≤ g y := by
  induction l generalizing x with
  | nil =>
    intro y hy
    simp at hy
    simp [argminFold, hy]
  | cons b l ih =>
    intro y hy
    have hhead : g (if g b < g x then b else x) ≤ g x ∧ g (if g b < g x then b else x) ≤ g b := by
      by_cases hc : g b < g x
      · simp [hc]
        exact le_of_lt hc
      · simp [hc]
        exact le_of_not_lt hc
    have hmain : g (argminFold g (if g b < g x then b else x) l) ≤
        g (if g b < g x then b else x) :=
      ih _ _ (List.mem_cons_self _ _)
    rcases List.mem_cons.mp hy with hy | hy
    · subst hy
      simp only [argminFold]
      exact le_trans hmain hhead.1
    · rcases List.mem_cons.mp hy with hy | hy
      · subst hy
        simp only [argminFold]
        exact le_trans hmain hhead.2
      · simp only [argminFold]
        exact ih _ y (List.mem_cons_of_mem _ hy)

lemma argminFold_append {α : Type} (g : α → ℚ) (x : α) (l1 l2 : List α) :
    g (argminFold g x (l1 ++ l2)) ≤ g (argminFold g x l1) := by
  have hfold : argminFold g x (l1 ++ l2) = argminFold g (argminFold g x l1) l2 := by
    induction l1 generalizing x with
    | nil => simp [argminFold]
    | cons b l ih =>
      simp only [List.cons_append, argminFold]
      exact ih _
  rw [hfold]
  exact argminFold_le g _ l2 _ (List.mem_cons_self _ _)

lemma argminFold_prop {α : Type} (g : α → ℚ) (x : α) (l : List α)
    (P : α → Prop) (hx : P x) (hl : ∀ y ∈ l, P y) : P (argminFold g x l) := by
  rcases List.mem_cons.mp (argminFold_mem g x l) with h | h
  · rwa [h]
  · exact hl _ h

lemma bestIndex_lt (cw s c0 c1 : Vector3) : bestIndex cw s c0 c1 < 4 := by
  have h := argminFold_mem (fun k => wdist cw s (palettePoint c0 c1 k)) 0 [1, 2, 3]
  simp only [List.mem_cons, List.not_mem_nil, or_false] at h
  unfold bestIndex
  rcases h with h | h | h | h <;> rw [h]
  all_goals norm_num

lemma validBlock_makeBlock (colors : Fin 16 → Vector3) (cw : Vector3) (p : ℕ × ℕ)
    (h1 : p.1 < 65536) (h2 : p.2 < 65536) : validBlock (makeBlock colors cw p) := by
  refine ⟨h1, h2, ?_, ?_, rfl, ?_⟩
  · have h := packIndexList_lt (List.ofFn fun i : Fin 16 =>
      bestIndex cw (colors i) (dequantize p.1) (dequantize p.2))
    simp only [List.length_ofFn] at h
    calc packIndexList _ < 4 ^ 16 := h
      _ = 4294967296 := by norm_num
  · intro i
    exact Nat.mod_lt _ (by norm_num)
  · intro byte hb
    simp only [encodeBlock, List.mem_cons, List.not_mem_nil, or_false] at hb
    rcases hb with h | h | h | h | h | h | h | h <;> rw [h] <;>
      exact Nat.mod_lt _ (by norm_num)

lemma isEvalCandidate_candidate (colors : Fin 16 → Vector3) (w : Fin 16 → ℚ)
    (cw : Vector3) (p : ℕ × ℕ) (h1 : p.1 < 65536) (h2 : p.2 < 65536) :
    IsEvalCandidate colors w cw (candidate colors w cw p) :=
  ⟨validBlock_makeBlock colors cw p h1 h2, rfl⟩

lemma mem_allPairs (a b : ℕ) (ha : a < 65536) (hb : b < 65536) : (a, b) ∈ allPairs := by
  unfold allPairs
  rw [List.mem_flatMap]
  exact ⟨a, List.mem_range.mpr ha, List.mem_map.mpr ⟨b, List.mem_range.mpr hb, rfl⟩⟩

lemma exhaustiveBest_le (colors : Fin 16 → Vector3) (w : Fin 16 → ℚ) (cw : Vector3)
    (p : ℕ × ℕ) (h1 : p.1 < 65536) (h2 : p.2 < 65536) :
    (exhaustiveBest colors w cw).2 ≤ (candidate colors w cw p).2 := by
  apply argminFold_le
  apply List.mem_cons.mpr
  right
  exact List.mem_map.mpr ⟨p, by rw [show p = (p.1, p.2) from rfl]; exact mem_allPairs p.1 p.2 h1 h2, rfl⟩

lemma exhaustiveBest_isEval (colors : Fin 16 → Vector3) (w : Fin 16 → ℚ) (cw : Vector3) :
    IsEvalCandidate colors w cw (exhaustiveBest colors w cw) := by
  apply argminFold_prop
  · exact isEvalCandidate_candidate colors w cw (0, 0) (by norm_num) (by norm_num)
  · intro y hy
    rcases List.mem_map.mp hy with ⟨p, hp, rfl⟩
    rcases List.mem_flatMap.mp hp with ⟨a, ha, hmem⟩
    rcases List.mem_map.mp hmem with ⟨b, hb, rfl⟩
    exact isEvalCandidate_candidate colors w cw (a, b)
      (List.mem_range.mp ha) (List.mem_range.mp hb)

lemma nbhd5_le (x : ℚ) : ∀ r ∈ nbhd5 x, r ≤ 31 := by
  intro r hr
  have h := quant5_le x
  simp only [nbhd5, List.mem_cons, List.not_mem_nil, or_false] at hr
  rcases hr with h1 | h1 | h1 <;> omega

lemma nbhd6_le (x : ℚ) : ∀ r ∈ nbhd6 x, r ≤ 63 := by
  intro r hr
  have h := quant6_le x
  simp only [nbhd6, List.mem_cons, List.not_mem_nil, or_false] at hr
  rcases hr with h1 | h1 | h1 <;> omega

lemma nbhdColors_lt (c : Vector3) : ∀ q ∈ nbhdColors c, q < 65536 := by
  intro q hq
  rcases List.mem_flatMap.mp hq with ⟨r, hr, hq1⟩
  rcases List.mem_flatMap.mp hq1 with ⟨g, hg, hq2⟩
  rcases List.mem_map.mp hq2 with ⟨b, hb, rfl⟩
  have h1 := nbhd5_le c.x r hr
  have h2 := nbhd6_le c.y g hg
  have h3 := nbhd5_le c.z b hb
  omega

/-! ## Shared facts about the strategies -/

lemma evalBlockMSE_zero_w (colors : Fin 16 → Vector3) (w : Fin 16 → ℚ) (cw : Vector3)
    (b : BlockDXT1) (hw : ∀ i, w i = 0) : evalBlockMSE colors w cw b = 0 := by
  unfold evalBlockMSE
  apply Finset.sum_eq_zero
  intro i _
  rw [hw i, zero_mul]

lemma single_color_isEval (colors : Fin 16 → Vector3) (w : Fin 16 → ℚ) (cw : Vector3) :
    IsEvalCandidate colors w cw (compress_dxt1_single_color colors w cw) := by
  unfold compress_dxt1_single_color
  split
  · exact exhaustiveBest_isEval colors w cw
  · apply argminFold_prop
    · exact isEvalCandidate_candidate _ _ _ _ (quantize_lt _) (quantize_lt _)
    · intro y hy
      rcases List.mem_map.mp hy with ⟨p, hp, rfl⟩
      simp only [nbhdPairs] at hp
      rcases List.mem_flatMap.mp hp with ⟨a, ha, hmem⟩
      rcases List.mem_map.mp hmem with ⟨b, hb, rfl⟩
      exact isEvalCandidate_candidate _ _ _ (a, b)
        (nbhdColors_lt _ a ha) (nbhdColors_lt _ b hb)

lemma bb_isEval (colors : Fin 16 → Vector3) (w : Fin 16 → ℚ) (cw : Vector3) (limit : ℕ) :
    IsEvalCandidate colors w cw (compress_dxt1_bounding_box_exhaustive colors w cw limit) := by
  unfold compress_dxt1_bounding_box_exhaustive
  apply argminFold_prop
  · simp only [cornerPair]
    exact isEvalCandidate_candidate _ _ _ _ (quantize_lt _) (quantize_lt _)
  · intro y hy
    rcases List.mem_map.mp hy with ⟨k, _, rfl⟩
    simp only [bbPair]
    exact isEvalCandidate_candidate _ _ _ _ (quantize_lt _) (quantize_lt _)

lemma ls_isEval (colors : Fin 16 → Vector3) (w : Fin 16 → ℚ) (cw : Vector3) :
    IsEvalCandidate colors w cw (compress_dxt1_least_squares_fit colors w cw) := by
  unfold compress_dxt1_least_squares_fit lsPair
  exact isEvalCandidate_candidate _ _ _ _ (quantize_lt _) (quantize_lt _)

lemma cluster_fit_eq_exhaustive (colors : Fin 16 → Vector3) (w : Fin 16 → ℚ)
    (cw : Vector3) :
    compress_dxt1_cluster_fit colors w cw = (exhaustiveBest colors w cw).1 := by
  by_cases h : allSame colors
  · simp only [compress_dxt1_cluster_fit, compress_dxt1_single_color, if_pos h]
  · simp only [compress_dxt1_cluster_fit, if_neg h]

lemma exhaustiveBest_le_bb (colors : Fin 16 → Vector3) (w : Fin 16 → ℚ) (cw : Vector3)
    (limit : ℕ) :
    (exhaustiveBest colors w cw).2 ≤
      (compress_dxt1_bounding_box_exhaustive colors w cw limit).2 := by
  unfold compress_dxt1_bounding_box_exhaustive
  refine argminFold_prop _ _ _
    (fun x : BlockDXT1 × ℚ => (exhaustiveBest colors w cw).2 ≤ x.2) ?_ ?_
  · simp only [cornerPair]
    exact exhaustiveBest_le colors w cw _ (quantize_lt _) (quantize_lt _)
  · intro y hy
    rcases List.mem_map.mp hy with ⟨k, _, rfl⟩
    simp only [bbPair]
    exact exhaustiveBest_le colors w cw _ (quantize_lt _) (quantize_lt _)

lemma compress_dxt1_le_single (colors : Fin 16 → Vector3) (w : Fin 16 → ℚ)
    (cw : Vector3) :
    (compress_dxt1 colors w cw).2 ≤ (compress_dxt1_single_color colors w cw).2 := by
  unfold compress_dxt1
  split_ifs with h1 h2
  · exact le_refl _
  · exact le_of_lt h2
  · exact le_refl _

lemma compress_dxt1_valid (colors : Fin 16 → Vector3) (w : Fin 16 → ℚ) (cw : Vector3) :
    validBlock (compress_dxt1 colors w cw).1 := by
  unfold compress_dxt1
  split_ifs with h1 h2
  · exact (single_color_isEval colors w cw).1
  · show validBlock (compress_dxt1_cluster_fit colors w cw)
    rw [cluster_fit_eq_exhaustive]
    exact (exhaustiveBest_isEval colors w cw).1
  · exact (single_color_isEval colors w cw).1

lemma compress_dxt1_zero_w (colors : Fin 16 → Vector3) (w : Fin 16 → ℚ) (cw : Vector3)
    (hw : ∀ i, w i = 0) :
    compress_dxt1 colors w cw = compress_dxt1_single_color colors w cw := by
  unfold compress_dxt1
  split_ifs with h1 h2
  · rfl
  · exfalso
    have hc := evalBlockMSE_zero_w colors w cw (compress_dxt1_cluster_fit colors w cw) hw
    have hs : (compress_dxt1_single_color colors w cw).2 = 0 := by
      rw [(single_color_isEval colors w cw).2]
      exact evalBlockMSE_zero_w colors w cw _ hw
    rw [hc, hs] at h2
    exact lt_irrefl 0 h2
  · rfl

/-! ## Claim theorems for the compression core -/

/-- Claim C1: floor property of the driver: for every valid input (16
colors, 16 non-negative per-sample weights, channel weights), the MSE
returned by `compress_dxt1` is less than or equal to the MSE returned by
`compress_dxt1_single_color` on the same input. -/
theorem c1_driver_mse_floor (colors : Fin 16 → Vector3) (w : Fin 16 → ℚ)
    (cw : Vector3) (_hw : ∀ i, 0 ≤ w i) :
    (compress_dxt1 colors w cw).2 ≤ (compress_dxt1_single_color colors w cw).2 :=
  compress_dxt1_le_single colors w cw

/-- Witness for claim C1 at a concrete input. -/
theorem c1_driver_mse_floor_witness :
    (compress_dxt1 (fun _ => ⟨0, 0, 0⟩) (fun _ => 1) ⟨1, 1, 1⟩).2 ≤
      (compress_dxt1_single_color (fun _ => ⟨0, 0, 0⟩) (fun _ => 1) ⟨1, 1, 1⟩).2 :=
  c1_driver_mse_floor (fun _ => ⟨0, 0, 0⟩) (fun _ => 1) ⟨1, 1, 1⟩
    (fun _ => by norm_num)

/-- Claim C2: global optimality bound of the cluster fitter: for every
input, the MSE of the block produced by `compress_dxt1_cluster_fit` is less
than or equal to the MSE returned by `compress_dxt1_least_squares_fit`, and
less than or equal to the MSE returned by
`compress_dxt1_bounding_box_exhaustive` for every non-negative
`search_limit`. -/
theorem c2_cluster_fit_global_bound (colors : Fin 16 → Vector3) (w : Fin 16 → ℚ)
    (cw : Vector3) (search_limit : ℕ) :
    evalBlockMSE colors w cw (compress_dxt1_cluster_fit colors w cw) ≤
        (compress_dxt1_least_squares_fit colors w cw).2 ∧
      evalBlockMSE colors w cw (compress_dxt1_cluster_fit colors w cw) ≤
        (compress_dxt1_bounding_box_exhaustive colors w cw search_limit).2 := by
  have hval : evalBlockMSE colors w cw (compress_dxt1_cluster_fit colors w cw) =
      (exhaustiveBest colors w cw).2 := by
    rw [cluster_fit_eq_exhaustive, ← (exhaustiveBest_isEval colors w cw).2]
  constructor
  · rw [hval, (ls_isEval colors w cw).2, ← (ls_isEval colors w cw).2]
    unfold compress_dxt1_least_squares_fit lsPair
    exact exhaustiveBest_le colors w cw _ (quantize_lt _) (quantize_lt _)
  · rw [hval]
    exact exhaustiveBest_le_bb colors w cw search_limit

/-- Claim C3: monotonicity in `search_limit`: for every input and every
pair of search limits `a ≤ b`, the MSE returned by
`compress_dxt1_bounding_box_exhaustive` with limit `b` is less than or
equal to its MSE with limit `a`; the function accepts any non-negative
`search_limit`, including 0, where it falls back to the bounding box's
corner candidate only. -/
theorem c3_bounding_box_monotone (colors : Fin 16 → Vector3) (w : Fin 16 → ℚ)
    (cw : Vector3) (a b : ℕ) (hab : a ≤ b) :
    (compress_dxt1_bounding_box_exhaustive colors w cw b).2 ≤
        (compress_dxt1_bounding_box_exhaustive colors w cw a).2 ∧
      compress_dxt1_bounding_box_exhaustive colors w cw 0 =
        candidate colors w cw (cornerPair colors) := by
  constructor
  · obtain ⟨c, rfl⟩ := Nat.exists_eq_add_of_le hab
    unfold compress_dxt1_bounding_box_exhaustive
    rw [List.range_add, List.map_append]
    exact argminFold_append _ _ _ _
  · simp [compress_dxt1_bounding_box_exhaustive, argminFold]

/-- Witness for claim C3 at a concrete input. -/
theorem c3_bounding_box_monotone_witness :
    (compress_dxt1_bounding_box_exhaustive (fun _ => ⟨0, 0, 0⟩) (fun _ => 1) ⟨1, 1, 1⟩ 2).2 ≤
        (compress_dxt1_bounding_box_exhaustive (fun _ => ⟨0, 0, 0⟩) (fun _ => 1) ⟨1, 1, 1⟩ 1).2 ∧
      compress_dxt1_bounding_box_exhaustive (fun _ => ⟨0, 0, 0⟩) (fun _ => 1) ⟨1, 1, 1⟩ 0 =
        candidate (fun _ => ⟨0, 0, 0⟩) (fun _ => 1) ⟨1, 1, 1⟩
          (cornerPair (fun _ => ⟨0, 0, 0⟩)) :=
  c3_bounding_box_monotone (fun _ => ⟨0, 0, 0⟩) (fun _ => 1) ⟨1, 1, 1⟩ 1 2 (by norm_num)

/-- Claim C4: output block invariant: every block produced by any of the
compression entry points has all 16 two-bit indices in `[0, 3]`, has
`col0` and `col1` that are valid 16-bit packed 5-6-5 colors, and serializes
to exactly 8 bytes. -/
theorem c4_output_block_invariant (colors : Fin 16 → Vector3) (w : Fin 16 → ℚ)
    (cw : Vector3) (search_limit : ℕ) (c : Vector3) :
    validBlock (compress_dxt1_single_color colors w cw).1 ∧
      validBlock (compress_dxt1_least_squares_fit colors w cw).1 ∧
      validBlock (compress_dxt1_bounding_box_exhaustive colors w cw search_limit).1 ∧
      validBlock (compress_dxt1_cluster_fit colors w cw) ∧
      validBlock (compress_dxt1 colors w cw).1 ∧
      validBlock (compress_dxt1_single_color_optimal c).1 :=
  ⟨(single_color_isEval colors w cw).1,
   (ls_isEval colors w cw).1,
   (bb_isEval colors w cw search_limit).1,
   by rw [cluster_fit_eq_exhaustive]; exact (exhaustiveBest_isEval colors w cw).1,
   compress_dxt1_valid colors w cw,
   (exhaustiveBest_isEval (fun _ => c) (fun _ => 1) ⟨1, 1, 1⟩).1⟩

/-- Claim C5: quantization round-trip: for every 16-bit packed 5-6-5 color
`p`, quantizing the dequantized color yields `p` again. -/
theorem c5_quantize_round_trip (p : ℕ) (hp : p < 65536) :
    quantize (dequantize p) = p := by
  unfold quantize dequantize
  simp only
  rw [quant5_dequant5 _ (by omega), quant6_dequant6 _ (by omega),
    quant5_dequant5 _ (by omega)]
  omega

/-- Witness for claim C5 at a concrete packed color. -/
theorem c5_quantize_round_trip_witness :
    54321 < 65536 ∧ quantize (dequantize 54321) = 54321 :=
  ⟨by norm_num, c5_quantize_round_trip 54321 (by norm_num)⟩

/-- Claim C6: degenerate-input policy: on zero-variance inputs (all 16
samples identical) the cluster fitter short-circuits to the Single-Color
Fitter's result and the driver returns the Single-Color Fitter's candidate,
a valid block; on all-zero per-sample weights the driver still returns a
valid block, falls back to the Single-Color Fitter's result, and reports an
MSE of 0. -/
theorem c6_degenerate_input_policy (colors : Fin 16 → Vector3) (w : Fin 16 → ℚ)
    (cw : Vector3) :
    (allSame colors →
      compress_dxt1_cluster_fit colors w cw =
          (compress_dxt1_single_color colors w cw).1 ∧
        compress_dxt1 colors w cw = compress_dxt1_single_color colors w cw ∧
        validBlock (compress_dxt1 colors w cw).1) ∧
    ((∀ i, w i = 0) →
      compress_dxt1 colors w cw = compress_dxt1_single_color colors w cw ∧
        (compress_dxt1 colors w cw).2 = 0 ∧
        validBlock (compress_dxt1 colors w cw).1) := by
  constructor
  · intro h
    refine ⟨?_, ?_, compress_dxt1_valid colors w cw⟩
    · simp only [compress_dxt1_cluster_fit, if_pos h]
    · simp only [compress_dxt1, if_pos h]
  · intro hw
    refine ⟨compress_dxt1_zero_w colors w cw hw, ?_, compress_dxt1_valid colors w cw⟩
    rw [compress_dxt1_zero_w colors w cw hw, (single_color_isEval colors w cw).2]
    exact evalBlockMSE_zero_w colors w cw _ hw

/-- Witness for claim C6 at a concrete degenerate input (constant colors
and all-zero weights). -/
theorem c6_degenerate_input_policy_witness :
    compress_dxt1_cluster_fit (fun _ => ⟨3, 7, 250⟩) (fun _ => 0) ⟨1, 1, 1⟩ =
        (compress_dxt1_single_color (fun _ => ⟨3, 7, 250⟩) (fun _ => 0) ⟨1, 1, 1⟩).1 ∧
      (compress_dxt1 (fun _ => ⟨3, 7, 250⟩) (fun _ => 0) ⟨1, 1, 1⟩).2 = 0 :=
  ⟨((c6_degenerate_input_policy (fun _ => ⟨3, 7, 250⟩) (fun _ => 0) ⟨1, 1, 1⟩).1
      (fun _ => rfl)).1,
   ((c6_degenerate_input_policy (fun _ => ⟨3, 7, 250⟩) (fun _ => 0) ⟨1, 1, 1⟩).2
      (fun _ => rfl)).2.1⟩

/-- Claim C7: frame condition and purity: one `compress_dxt1` call leaves
the caller-owned colors, per-sample weights and channel weights unchanged,
writes only the caller-allocated output block, and carries no state between
calls: the written block and returned MSE depend only on the inputs. -/
theorem c7_frame_purity (s : CompressCall) :
    (run_compress_dxt1 s).1.colors = s.colors ∧
      (run_compress_dxt1 s).1.weights = s.weights ∧
      (run_compress_dxt1 s).1.color_weights = s.color_weights ∧
      (run_compress_dxt1 s).1.output =
        (compress_dxt1 s.colors s.weights s.color_weights).1 ∧
      (run_compress_dxt1 s).2 =
        (compress_dxt1 s.colors s.weights s.color_weights).2 ∧
      (∀ s' : CompressCall, s'.colors = s.colors → s'.weights = s.weights →
        s'.color_weights = s.color_weights →
        (run_compress_dxt1 s').1.output = (run_compress_dxt1 s).1.output ∧
          (run_compress_dxt1 s').2 = (run_compress_dxt1 s).2) := by
  refine ⟨rfl, rfl, rfl, rfl, rfl, ?_⟩
  intro s' h1 h2 h3
  simp [run_compress_dxt1, h1, h2, h3]

/-- Witness for claim C7: two call states sharing inputs but differing in
the prior contents of the output block produce the same written block and
MSE. -/
theorem c7_frame_purity_witness :
    (run_compress_dxt1 ⟨fun _ => ⟨0, 0, 0⟩, fun _ => 1, ⟨1, 1, 1⟩, ⟨9, 9, 9⟩⟩).1.output =
        (run_compress_dxt1 ⟨fun _ => ⟨0, 0, 0⟩, fun _ => 1, ⟨1, 1, 1⟩, ⟨0, 0, 0⟩⟩).1.output ∧
      (run_compress_dxt1 ⟨fun _ => ⟨0, 0, 0⟩, fun _ => 1, ⟨1, 1, 1⟩, ⟨9, 9, 9⟩⟩).2 =
        (run_compress_dxt1 ⟨fun _ => ⟨0, 0, 0⟩, fun _ => 1, ⟨1, 1, 1⟩, ⟨0, 0, 0⟩⟩).2 :=
  (c7_frame_purity ⟨fun _ => ⟨0, 0, 0⟩, fun _ => 1, ⟨1, 1, 1⟩, ⟨0, 0, 0⟩⟩).2.2.2.2.2
    ⟨fun _ => ⟨0, 0, 0⟩, fun _ => 1, ⟨1, 1, 1⟩, ⟨9, 9, 9⟩⟩ rfl rfl rfl

end nv

/-! ## Lemmas about ProcessCommandLine -/

lemma pathExtension_suffix (l : List Char) : pathExtension l <:+ l := by
  induction l with
  | nil => exact List.suffix_refl _
  | cons c rest ih =>
    rw [pathExtension]
    split_ifs with h
    · exact List.suffix_refl _
    · exact ih.trans (List.suffix_cons c rest)

lemma isSuffix_map (f : Char → Char) {l1 l2 : List Char} (h : l1 <:+ l2) :
    l1.map f <:+ l2.map f := by
  obtain ⟨t, rfl⟩ := h
  exact ⟨t.map f, (List.map_append f t l1).symm⟩

lemma pclLoop_output_no_o (args : List (List Char)) (st : CmdLine)
    (h : oFlag ∉ args) : (pclLoop args st false).output = st.output := by
  induction args generalizing st with
  | nil => rfl
  | cons a rest ih =>
    have ha : a ≠ oFlag := fun he => h (he ▸ List.mem_cons_self _ _)
    have hrest : oFlag ∉ rest := fun hm => h (List.mem_cons_of_mem _ hm)
    rw [pclLoop]
    by_cases h1 : a = cubeFlag
    · rw [if_pos h1]
      exact ih _ hrest
    · rw [if_neg h1]
      by_cases h2 : a = arrayFlag
      · rw [if_pos h2]
        exact ih _ hrest
      · rw [if_neg h2, if_neg ha]
        by_cases h4 : isDashArg a = true
        · rw [if_pos h4]
          exact ih _ hrest
        · rw [if_neg h4, if_neg (by decide : ¬(false = true))]
          exact ih _ hrest

lemma pclLoop_files (args : List (List Char)) (st : CmdLine) (os : Bool) :
    (pclLoop args st os).files = st.files ++ filesF args os := by
  induction args generalizing st os with
  | nil => simp [pclLoop, filesF]
  | cons a rest ih =>
    rw [pclLoop, filesF]
    by_cases h1 : a = cubeFlag
    · rw [if_pos h1, if_pos h1]
      exact ih _ _
    · rw [if_neg h1, if_neg h1]
      by_cases h2 : a = arrayFlag
      · rw [if_pos h2, if_pos h2]
        exact ih _ _
      · rw [if_neg h2, if_neg h2]
        by_cases h3 : a = oFlag
        · rw [if_pos h3, if_pos h3]
          exact ih _ _
        · rw [if_neg h3, if_neg h3]
          by_cases h4 : isDashArg a = true
          · rw [if_pos h4, if_pos h4]
            exact ih _ _
          · rw [if_neg h4, if_neg h4]
            by_cases h5 : os = true
            · rw [if_pos h5, if_pos h5]
              exact ih _ _
            · rw [if_neg h5, if_neg h5]
              rw [ih _ _]
              simp

lemma allDashBelow_zero (args : List (List Char)) : allDashBelow args 0 :=
  fun k _ hk _ => absurd hk (Nat.not_lt_zero k)

lemma allDashBelow_cons (a : List Char) (args : List (List Char)) (n : ℕ) :
    allDashBelow (a :: args) (n + 1) ↔ isDashArg a = true ∧ allDashBelow args n := by
  constructor
  · intro h
    refine ⟨h 0 a (Nat.succ_pos n) (by simp), ?_⟩
    intro k b hk hget
    exact h (k + 1) b (Nat.succ_lt_succ hk) (by simpa using hget)
  · rintro ⟨ha, h⟩ k b hk hget
    cases k with
    | zero =>
      simp only [List.getElem?_cons_zero, Option.some_inj] at hget
      rw [← hget]
      exact ha
    | succ k2 =>
      exact h k2 b (Nat.lt_of_succ_lt_succ hk) (by simpa using hget)

lemma consumesOutput_zero (args : List (List Char)) : ¬consumesOutput args 0 := by
  rintro ⟨m, hm, -⟩
  exact absurd hm (Nat.not_lt_zero m)

lemma consumesOutput_cons (a : List Char) (args : List (List Char)) (n : ℕ) :
    consumesOutput (a :: args) (n + 1) ↔
      (a = oFlag ∧ allDashBelow args n) ∨ consumesOutput args n := by
  constructor
  · rintro ⟨m, hm, hget, hbet⟩
    cases m with
    | zero =>
      left
      simp only [List.getElem?_cons_zero, Option.some_inj] at hget
      refine ⟨hget, ?_⟩
      intro k b hk hgetk
      exact hbet (k + 1) b (Nat.succ_pos k) (Nat.succ_lt_succ hk) (by simpa using hgetk)
    | succ m2 =>
      right
      refine ⟨m2, Nat.lt_of_succ_lt_succ hm, by simpa using hget, ?_⟩
      intro k b hmk hkn hgetk
      exact hbet (k + 1) b (Nat.succ_lt_succ hmk) (Nat.succ_lt_succ hkn)
        (by simpa using hgetk)
  · rintro (⟨rfl, hall⟩ | ⟨m, hm, hget, hbet⟩)
    · refine ⟨0, Nat.succ_pos n, by simp, ?_⟩
      intro k b h0k hk hgetk
      cases k with
      | zero => exact absurd h0k (lt_irrefl 0)
      | succ k2 =>
        exact hall k2 b (Nat.lt_of_succ_lt_succ hk) (by simpa using hgetk)
    · refine ⟨m + 1, Nat.succ_lt_succ hm, by simpa using hget, ?_⟩
      intro k b hmk hkn hgetk
      cases k with
      | zero => exact absurd hmk (Nat.not_lt_zero _)
      | succ k2 =>
        exact hbet k2 b (Nat.lt_of_succ_lt_succ hmk) (Nat.lt_of_succ_lt_succ hkn)
          (by simpa using hgetk)

lemma fileish_zero (a : List Char) (args : List (List Char)) (os : Bool) :
    Fileish (a :: args) os 0 ↔ (isDashArg a = false ∧ os = false) := by
  unfold Fileish
  constructor
  · rintro ⟨b, hb, hdash, hnot⟩
    simp only [List.getElem?_cons_zero, Option.some_inj] at hb
    subst hb
    refine ⟨hdash, ?_⟩
    by_cases hos : os = true
    · exact absurd (Or.inr ⟨hos, allDashBelow_zero _⟩) hnot
    · exact Bool.eq_false_iff.mpr hos
  · rintro ⟨hdash, hos⟩
    refine ⟨a, by simp, hdash, ?_⟩
    rintro (hc | ⟨ht, -⟩)
    · exact consumesOutput_zero _ hc
    · rw [hos] at ht
      exact Bool.false_ne_true ht

lemma fileish_succ (a : List Char) (args : List (List Char)) (os : Bool) (n : ℕ) :
    Fileish (a :: args) os (n + 1) ↔
      (∃ b, args[n]? = some b ∧ isDashArg b = false ∧
        ¬((a = oFlag ∧ allDashBelow args n) ∨ consumesOutput args n ∨
          (os = true ∧ isDashArg a = true ∧ allDashBelow args n))) := by
  unfold Fileish
  simp only [List.getElem?_cons_succ, consumesOutput_cons, allDashBelow_cons]
  constructor
  · rintro ⟨b, hb, hdash, hnot⟩
    exact ⟨b, hb, hdash, fun hor => hnot (by tauto)⟩
  · rintro ⟨b, hb, hdash, hnot⟩
    exact ⟨b, hb, hdash, fun hor => hnot (by tauto)⟩

lemma forall_not_shift (P Q : ℕ → Prop) (h0 : ¬P 0)
    (hs : ∀ n, P (n + 1) ↔ Q n) : (∀ n, ¬P n) ↔ (∀ n, ¬Q n) := by
  constructor
  · intro h n hq
    exact h (n + 1) ((hs n).mpr hq)
  · intro h n
    cases n with
    | zero => exact h0
    | succ m => exact fun hp => h m ((hs m).mp hp)

lemma fileish_shift_plain (a : List Char) (rest : List (List Char)) (os : Bool)
    (hdash : isDashArg a = true) (hao : a ≠ oFlag) :
    (∀ n, ¬Fileish (a :: rest) os n) ↔ (∀ n, ¬Fileish rest os n) := by
  apply forall_not_shift
  · rw [fileish_zero]
    rintro ⟨hf, -⟩
    rw [hdash] at hf
    exact absurd hf (by decide)
  · intro n
    rw [fileish_succ]
    unfold Fileish
    constructor
    · rintro ⟨b, hb, hd, hnot⟩
      refine ⟨b, hb, hd, ?_⟩
      rintro (hc | ⟨hos, hall⟩)
      · exact hnot (Or.inr (Or.inl hc))
      · exact hnot (Or.inr (Or.inr ⟨hos, hdash, hall⟩))
    · rintro ⟨b, hb, hd, hnot⟩
      refine ⟨b, hb, hd, ?_⟩
      rintro (⟨ho, -⟩ | hc | ⟨hos, -, hall⟩)
      · exact hao ho
      · exact hnot (Or.inl hc)
      · exact hnot (Or.inr ⟨hos, hall⟩)

lemma fileish_shift_o (rest : List (List Char)) (os : Bool) :
    (∀ n, ¬Fileish (oFlag :: rest) os n) ↔ (∀ n, ¬Fileish rest true n) := by
  apply forall_not_shift
  · rw [fileish_zero]
    rintro ⟨hf, -⟩
    exact absurd hf (by decide)
  · intro n
    rw [fileish_succ]
    unfold Fileish
    constructor
    · rintro ⟨b, hb, hd, hnot⟩
      refine ⟨b, hb, hd, ?_⟩
      rintro (hc | ⟨-, hall⟩)
      · exact hnot (Or.inr (Or.inl hc))
      · exact hnot (Or.inl ⟨rfl, hall⟩)
    · rintro ⟨b, hb, hd, hnot⟩
      refine ⟨b, hb, hd, ?_⟩
      rintro (⟨-, hall⟩ | hc | ⟨-, -, hall⟩)
      · exact hnot (Or.inr ⟨rfl, hall⟩)
      · exact hnot (Or.inl hc)
      · exact hnot (Or.inr ⟨rfl, hall⟩)

lemma fileish_shift_consume (a : List Char) (rest : List (List Char))
    (hdash : isDashArg a = false) :
    (∀ n, ¬Fileish (a :: rest) true n) ↔ (∀ n, ¬Fileish rest false n) := by
  have hao : a ≠ oFlag := by
    intro he
    rw [he] at hdash
    exact absurd hdash (by decide)
  apply forall_not_shift
  · rw [fileish_zero]
    rintro ⟨-, hf⟩
    exact absurd hf (by decide)
  · intro n
    rw [fileish_succ]
    unfold Fileish
    constructor
    · rintro ⟨b, hb, hd, hnot⟩
      refine ⟨b, hb, hd, ?_⟩
      rintro (hc | ⟨hff, -⟩)
      · exact hnot (Or.inr (Or.inl hc))
      · exact absurd hff (by decide)
    · rintro ⟨b, hb, hd, hnot⟩
      refine ⟨b, hb, hd, ?_⟩
      rintro (⟨ho, -⟩ | hc | ⟨-, hda, -⟩)
      · exact hao ho
      · exact hnot (Or.inl hc)
      · rw [hdash] at hda
        exact absurd hda (by decide)

lemma filesF_eq_nil_iff (args : List (List Char)) (os : Bool) :
    filesF args os = [] ↔ ∀ n, ¬Fileish args os n := by
  induction args generalizing os with
  | nil =>
    simp only [filesF, true_iff]
    rintro n ⟨a, ha, -⟩
    simp at ha
  | cons a rest ih =>
    rw [filesF]
    by_cases h1 : a = cubeFlag
    · rw [if_pos h1]
      exact (ih os).trans
        (fileish_shift_plain a rest os (by rw [h1]; decide) (by rw [h1]; decide)).symm
    · rw [if_neg h1]
      by_cases h2 : a = arrayFlag
      · rw [if_pos h2]
        exact (ih os).trans
          (fileish_shift_plain a rest os (by rw [h2]; decide) (by rw [h2]; decide)).symm
      · rw [if_neg h2]
        by_cases h3 : a = oFlag
        · rw [if_pos h3]
          subst h3
          exact (ih true).trans (fileish_shift_o rest os).symm
        · rw [if_neg h3]
          by_cases h4 : isDashArg a = true
          · rw [if_pos h4]
            exact (ih os).trans (fileish_shift_plain a rest os h4 h3).symm
          · rw [if_neg h4]
            have hdash : isDashArg a = false := Bool.eq_false_iff.mpr h4
            by_cases h5 : os = true
            · rw [if_pos h5]
              subst h5
              exact (ih false).trans (fileish_shift_consume a rest hdash).symm
            · rw [if_neg h5]
              have hos : os = false := Bool.eq_false_iff.mpr h5
              constructor
              · intro h
                exact absurd h (List.cons_ne_nil _ _)
              · intro h
                exact absurd ((fileish_zero a rest os).mpr ⟨hdash, hos⟩) (h 0)

lemma isFileIndex_iff_fileish (args : List (List Char)) (n : ℕ) :
    isFileIndex args n ↔ Fileish args false n := by
  unfold isFileIndex Fileish
  constructor
  · rintro ⟨a, ha, hd, hc⟩
    refine ⟨a, ha, hd, ?_⟩
    rintro (hc2 | ⟨hft, -⟩)
    · exact hc hc2
    · exact absurd hft (by decide)
  · rintro ⟨a, ha, hd, hn⟩
    exact ⟨a, ha, hd, fun hc => hn (Or.inl hc)⟩

lemma ddsExt_lower : ddsExt.map Char.toLower = ddsExt := by decide

lemma processCommandLine_eq (args : List (List Char)) :
    ProcessCommandLine args =
      (if (pclLoop args ⟨[], defaultOutput, false, false⟩ false).files = [] then none
       else some { pclLoop args ⟨[], defaultOutput, false, false⟩ false with output :=
         (if strCaseEq (pathExtension
              (pclLoop args ⟨[], defaultOutput, false, false⟩ false).output) ddsExt then
            (pclLoop args ⟨[], defaultOutput, false, false⟩ false).output
          else (pclLoop args ⟨[], defaultOutput, false, false⟩ false).output ++ ddsExt) }) :=
  rfl

/-- Claim C8: ProcessCommandLine argument contract: the call returns false
(usage printed) exactly when the argument list holds no non-option file
argument (a non-option argument not consumed as the value of a pending
`-o`); whenever it returns true the chosen output path ends,
case-insensitively, in `".dds"`, and the output path is `"nvout.dds"` when
no `-o` option is supplied. -/
theorem c8_process_command_line_contract (args : List (List Char)) :
    (ProcessCommandLine args = none ↔ ¬∃ n, isFileIndex args n) ∧
      ∀ r, ProcessCommandLine args = some r →
        ddsExt <:+ r.output.map Char.toLower ∧
          (oFlag ∉ args → r.output = defaultOutput) := by
  have hfiles : (pclLoop args ⟨[], defaultOutput, false, false⟩ false).files =
      filesF args false := by
    rw [pclLoop_files]
    exact List.nil_append _
  constructor
  · rw [processCommandLine_eq]
    split_ifs with h
    · constructor
      · intro _
        rw [hfiles] at h
        rintro ⟨n, hn⟩
        exact ((filesF_eq_nil_iff args false).mp h n)
          ((isFileIndex_iff_fileish args n).mp hn)
      · intro _
        rfl
    · constructor
      · intro hcontra
        exact absurd hcontra (by simp)
      · intro hno
        exfalso
        rw [hfiles] at h
        have h2 : ¬∀ n, ¬Fileish args false n :=
          fun hall => h ((filesF_eq_nil_iff args false).mpr hall)
        rcases not_forall.mp h2 with ⟨n, hn⟩
        rw [not_not] at hn
        exact hno ⟨n, (isFileIndex_iff_fileish args n).mpr hn⟩
  · intro r hr
    rw [processCommandLine_eq] at hr
    by_cases h : (pclLoop args ⟨[], defaultOutput, false, false⟩ false).files = []
    · rw [if_pos h] at hr
      exact absurd hr (by simp)
    · rw [if_neg h] at hr
      by_cases hc : strCaseEq (pathExtension
          (pclLoop args ⟨[], defaultOutput, false, false⟩ false).output) ddsExt
      · rw [if_pos hc, Option.some_inj] at hr
        subst hr
        constructor
        · show ddsExt <:+
            ((pclLoop args ⟨[], defaultOutput, false, false⟩ false).output).map Char.toLower
          have hsuf := isSuffix_map Char.toLower (pathExtension_suffix
            ((pclLoop args ⟨[], defaultOutput, false, false⟩ false).output))
          unfold strCaseEq at hc
          rw [hc, ddsExt_lower] at hsuf
          exact hsuf
        · intro hno
          show (pclLoop args ⟨[], defaultOutput, false, false⟩ false).output = defaultOutput
          exact pclLoop_output_no_o args ⟨[], defaultOutput, false, false⟩ hno
      · rw [if_neg hc, Option.some_inj] at hr
        subst hr
        constructor
        · show ddsExt <:+
            ((pclLoop args ⟨[], defaultOutput, false, false⟩ false).output ++
              ddsExt).map Char.toLower
          rw [List.map_append, ddsExt_lower]
          exact ⟨_, rfl⟩
        · intro hno
          exfalso
          have hout := pclLoop_output_no_o args ⟨[], defaultOutput, false, false⟩ hno
          rw [hout] at hc
          exact hc (by decide)

/-! ## Lemmas about GatherSourceImages -/

lemma attrsMatch_self (d : SurfaceInfo) : attrsMatch d (attrsOf d) :=
  ⟨rfl, rfl, rfl, rfl, rfl⟩

lemma gatherAux_cons_none (load : List Char → Option SurfaceInfo) (f0 : List Char)
    (rest : List (List Char)) (n : ℕ) (attrs : ImageAttrs) (imgs : List ImageData)
    (h : load f0 = none) :
    gatherAux load (f0 :: rest) n attrs imgs = (false, imgs ++ [⟨f0, n, 0⟩], attrs) := by
  rw [gatherAux, h]

lemma gatherAux_cons_some (load : List Char → Option SurfaceInfo) (f0 : List Char)
    (rest : List (List Char)) (n : ℕ) (attrs : ImageAttrs) (imgs : List ImageData)
    (d : SurfaceInfo) (h : load f0 = some d) :
    gatherAux load (f0 :: rest) n attrs imgs =
      (if n > 0 ∧ ¬attrsMatch d attrs then (false, imgs ++ [⟨f0, n, 0⟩], attrs)
       else gatherAux load rest (n + 1) (if n = 0 then attrsOf d else attrs)
         ((imgs ++ [⟨f0, n, 0⟩]) ++
           (List.range (facesOf d - 1)).map fun m => ⟨[], n, m + 1⟩)) := by
  rw [gatherAux, h]

lemma gatherAux_true_load (load : List Char → Option SurfaceInfo)
    (fs : List (List Char)) (n : ℕ) (attrs : ImageAttrs) (imgs : List ImageData)
    (h : (gatherAux load fs n attrs imgs).1 = true) :
    ∀ f ∈ fs, ∃ d, load f = some d := by
  induction fs generalizing n attrs imgs with
  | nil =>
    intro f hf
    simp at hf
  | cons f0 rest ih =>
    intro f hf
    cases hload : load f0 with
    | none =>
      rw [gatherAux_cons_none load f0 rest n attrs imgs hload] at h
      exact absurd h (by simp)
    | some d =>
      rw [gatherAux_cons_some load f0 rest n attrs imgs d hload] at h
      by_cases hm : n > 0 ∧ ¬attrsMatch d attrs
      · rw [if_pos hm] at h
        exact absurd h (by simp)
      · rw [if_neg hm] at h
        rcases List.mem_cons.mp hf with rfl | hf2
        · exact ⟨d, hload⟩
        · exact ih _ _ _ h f hf2

lemma gatherAux_pos (load : List Char → Option SurfaceInfo)
    (fs : List (List Char)) (n : ℕ) (attrs : ImageAttrs) (imgs : List ImageData)
    (hn : 0 < n) (h : (gatherAux load fs n attrs imgs).1 = true) :
    (gatherAux load fs n attrs imgs).2.2 = attrs ∧
      ∀ f ∈ fs, ∃ d, load f = some d ∧ attrsMatch d attrs := by
  induction fs generalizing n attrs imgs with
  | nil =>
    refine ⟨rfl, ?_⟩
    intro f hf
    simp at hf
  | cons f0 rest ih =>
    cases hload : load f0 with
    | none =>
      rw [gatherAux_cons_none load f0 rest n attrs imgs hload] at h
      exact absurd h (by simp)
    | some d =>
      rw [gatherAux_cons_some load f0 rest n attrs imgs d hload] at h ⊢
      by_cases hm : n > 0 ∧ ¬attrsMatch d attrs
      · rw [if_pos hm] at h
        exact absurd h (by simp)
      · rw [if_neg hm] at h ⊢
        have hmatch : attrsMatch d attrs := by
          by_cases hA : attrsMatch d attrs
          · exact hA
          · exact absurd ⟨hn, hA⟩ hm
        have hn0 : ¬(n = 0) := Nat.pos_iff_ne_zero.mp hn
        rw [if_neg hn0] at h ⊢
        rcases ih (n + 1) attrs _ (Nat.succ_pos n) h with ⟨hattrs, hall⟩
        refine ⟨hattrs, ?_⟩
        intro f hf
        rcases List.mem_cons.mp hf with rfl | hf2
        · exact ⟨d, hload, hmatch⟩
        · exact hall f hf2

lemma gather_true (load : List Char → Option SurfaceInfo)
    (files : List (List Char)) (attrs0 : ImageAttrs)
    (h : (GatherSourceImages load files attrs0).1 = true) :
    (∀ f ∈ files, ∃ d, load f = some d ∧
        attrsMatch d (GatherSourceImages load files attrs0).2.2) ∧
      ∀ f0, files.head? = some f0 → ∃ d0, load f0 = some d0 ∧
        (GatherSourceImages load files attrs0).2.2 = attrsOf d0 := by
  cases files with
  | nil =>
    constructor
    · intro f hf
      simp at hf
    · intro f0 hf0
      simp at hf0
  | cons f0 rest =>
    unfold GatherSourceImages at h ⊢
    cases hload : load f0 with
    | none =>
      rw [gatherAux_cons_none load f0 rest 0 attrs0 [] hload] at h
      exact absurd h (by simp)
    | some d =>
      rw [gatherAux_cons_some load f0 rest 0 attrs0 [] d hload] at h ⊢
      rw [if_neg (by simp : ¬(0 > 0 ∧ ¬attrsMatch d attrs0))] at h ⊢
      rw [if_pos rfl] at h ⊢
      rcases gatherAux_pos load rest 1 (attrsOf d) _ Nat.one_pos h with ⟨hattrs, hall⟩
      constructor
      · intro f hf
        rcases List.mem_cons.mp hf with rfl | hf2
        · exact ⟨d, hload, by rw [hattrs]; exact attrsMatch_self d⟩
        · rcases hall f hf2 with ⟨d2, hd2, hm2⟩
          exact ⟨d2, hd2, by rw [hattrs]; exact hm2⟩
      · intro f1 hf1
        simp only [List.head?_cons, Option.some_inj] at hf1
        subst hf1
        exact ⟨d, hload, hattrs⟩

/-- Claim C9: GatherSourceImages uniformity check: the call returns false
if any input file fails to load, or if some later file loads with
attributes differing from the first file's in width, height, depth, DX10
format or mipmap count; whenever it returns true, every input file loads
and agrees with the attribute record returned through the output
parameters, which is the first file's. -/
theorem c9_gather_uniformity (load : List Char → Option SurfaceInfo)
    (files : List (List Char)) (attrs0 : ImageAttrs) :
    ((∃ f ∈ files, load f = none) →
        (GatherSourceImages load files attrs0).1 = false) ∧
      ((∃ f0 d0 i f d, files.head? = some f0 ∧ load f0 = some d0 ∧ 0 < i ∧
          files[i]? = some f ∧ load f = some d ∧ ¬attrsMatch d (attrsOf d0)) →
        (GatherSourceImages load files attrs0).1 = false) ∧
      ((GatherSourceImages load files attrs0).1 = true →
        (∀ f ∈ files, ∃ d, load f = some d ∧
          attrsMatch d (GatherSourceImages load files attrs0).2.2) ∧
        ∀ f0, files.head? = some f0 → ∃ d0, load f0 = some d0 ∧
          (GatherSourceImages load files attrs0).2.2 = attrsOf d0) := by
  refine ⟨?_, ?_, gather_true load files attrs0⟩
  · rintro ⟨f, hf, hnone⟩
    by_cases hres : (GatherSourceImages load files attrs0).1 = true
    · rcases gatherAux_true_load load files 0 attrs0 [] hres f hf with ⟨d, hd⟩
      rw [hnone] at hd
      exact absurd hd (by simp)
    · exact Bool.eq_false_iff.mpr hres
  · rintro ⟨f0, d0, i, f, d, hhead, hload0, hi, hgeti, hloadf, hmis⟩
    by_cases hres : (GatherSourceImages load files attrs0).1 = true
    · exfalso
      rcases gather_true load files attrs0 hres with ⟨hall, hfirst⟩
      rcases hfirst f0 hhead with ⟨d0b, hd0b, hout⟩
      rw [hload0] at hd0b
      rw [Option.some_inj] at hd0b
      subst hd0b
      have hfmem : f ∈ files := by
        rcases List.getElem?_eq_some.mp hgeti with ⟨hlt, hget⟩
        exact hget ▸ List.getElem_mem hlt
      rcases hall f hfmem with ⟨db, hdb, hmb⟩
      rw [hloadf] at hdb
      rw [Option.some_inj] at hdb
      subst hdb
      rw [hout] at hmb
      exact hmis hmb
    · exact Bool.eq_false_iff.mpr hres

/-- Witness for claim C9: the uniformity conclusion at a concrete loader
and file list for which the call succeeds. -/
theorem c9_gather_uniformity_witness :
    (∀ f ∈ [[Char.ofNat 120]], ∃ d, (fun _ : List Char => some
        (⟨4, 4, 1, 70, 1, 1, false⟩ : SurfaceInfo)) f = some d ∧
      attrsMatch d (GatherSourceImages (fun _ => some ⟨4, 4, 1, 70, 1, 1, false⟩)
        [[Char.ofNat 120]] ⟨0, 0, 0, 0, 0⟩).2.2) ∧
      ∀ f0, ([[Char.ofNat 120]] : List (List Char)).head? = some f0 →
        ∃ d0, (fun _ : List Char => some (⟨4, 4, 1, 70, 1, 1, false⟩ : SurfaceInfo)) f0 =
            some d0 ∧
          (GatherSourceImages (fun _ => some ⟨4, 4, 1, 70, 1, 1, false⟩)
            [[Char.ofNat 120]] ⟨0, 0, 0, 0, 0⟩).2.2 = attrsOf d0 :=
  (c9_gather_uniformity (fun _ => some ⟨4, 4, 1, 70, 1, 1, false⟩)
    [[Char.ofNat 120]] ⟨0, 0, 0, 0, 0⟩).2.2 (by decide)

/-- Witness for claim C8 at the concrete argument list `["a"]`. -/
theorem c8_process_command_line_contract_witness :
    ddsExt <:+ ((⟨[[Char.ofNat 97]], defaultOutput, false, false⟩ : CmdLine).output.map
        Char.toLower) ∧
      (oFlag ∉ [[Char.ofNat 97]] →
        (⟨[[Char.ofNat 97]], defaultOutput, false, false⟩ : CmdLine).output =
          defaultOutput) :=
  (c8_process_command_line_contract [[Char.ofNat 97]]).2
    ⟨[[Char.ofNat 97]], defaultOutput, false, false⟩ (by decide)

/-! ## Lemmas about pointer grouping and DestroyImageArray -/

lemma pairwise_le_of_const (l : List ℕ) (n : ℕ) (h : ∀ x ∈ l, x = n) :
    l.Pairwise (· ≤ ·) := by
  induction l with
  | nil => exact List.Pairwise.nil
  | cons a r ih =>
    refine List.Pairwise.cons ?_ (ih fun x hx => h x (List.mem_cons_of_mem _ hx))
    intro b hb
    rw [h a (List.mem_cons_self _ _), h b (List.mem_cons_of_mem _ hb)]

lemma pairwise_append_const (imgs ext : List ImageData) (n : ℕ)
    (hsort : List.Pairwise (· ≤ ·) (imgs.map (·.dds)))
    (hlt : ∀ x ∈ imgs, x.dds < n)
    (hext : ∀ x ∈ ext, x.dds = n) :
    List.Pairwise (· ≤ ·) ((imgs ++ ext).map (·.dds)) := by
  rw [List.map_append, List.pairwise_append]
  refine ⟨hsort, pairwise_le_of_const _ n ?_, ?_⟩
  · intro x hx
    rcases List.mem_map.mp hx with ⟨y, hy, rfl⟩
    exact hext y hy
  · intro a ha b hb
    rcases List.mem_map.mp ha with ⟨y, hy, rfl⟩
    rcases List.mem_map.mp hb with ⟨z, hz, rfl⟩
    rw [hext z hz]
    exact le_of_lt (hlt y hy)

lemma gatherAux_dds_pairwise (load : List Char → Option SurfaceInfo)
    (fs : List (List Char)) (n : ℕ) (attrs : ImageAttrs) (imgs : List ImageData)
    (hsort : List.Pairwise (· ≤ ·) (imgs.map (·.dds)))
    (hlt : ∀ x ∈ imgs, x.dds < n) :
    List.Pairwise (· ≤ ·) ((gatherAux load fs n attrs imgs).2.1.map (·.dds)) := by
  induction fs generalizing n attrs imgs with
  | nil => exact hsort
  | cons f0 rest ih =>
    have hext1 : ∀ x ∈ [(⟨f0, n, 0⟩ : ImageData)], x.dds = n := by
      intro x hx
      simp only [List.mem_singleton] at hx
      rw [hx]
    cases hload : load f0 with
    | none =>
      rw [gatherAux_cons_none load f0 rest n attrs imgs hload]
      exact pairwise_append_const imgs _ n hsort hlt hext1
    | some d =>
      rw [gatherAux_cons_some load f0 rest n attrs imgs d hload]
      by_cases hm : n > 0 ∧ ¬attrsMatch d attrs
      · rw [if_pos hm]
        exact pairwise_append_const imgs _ n hsort hlt hext1
      · rw [if_neg hm]
        apply ih
        · rw [List.append_assoc]
          apply pairwise_append_const imgs _ n hsort hlt
          intro x hx
          rcases List.mem_append.mp hx with hx1 | hx2
          · exact hext1 x hx1
          · rcases List.mem_map.mp hx2 with ⟨m, -, rfl⟩
            rfl
        · intro x hx
          rcases List.mem_append.mp hx with hx1 | hx2
          · rcases List.mem_append.mp hx1 with hx3 | hx4
            · exact lt_trans (hlt x hx3) (Nat.lt_succ_self n)
            · rw [hext1 x hx4]
              exact Nat.lt_succ_self n
          · rcases List.mem_map.mp hx2 with ⟨m, -, rfl⟩
            exact Nat.lt_succ_self n

lemma gather_dds_pairwise (load : List Char → Option SurfaceInfo)
    (files : List (List Char)) (attrs0 : ImageAttrs) :
    List.Pairwise (· ≤ ·) ((GatherSourceImages load files attrs0).2.1.map (·.dds)) := by
  apply gatherAux_dds_pairwise
  · exact List.Pairwise.nil
  · intro x hx
    simp at hx

lemma grouped_of_pairwise (l : List ℕ) (r : ℕ → ℕ → Prop)
    (hp : l.Pairwise r) (hanti : ∀ a b, r a b → r b a → a = b) : Grouped l := by
  intro i j k a hij hjk hi hk
  rcases eq_or_lt_of_le hij with rfl | hij2
  · exact hi
  rcases eq_or_lt_of_le hjk with rfl | hjk2
  · exact hk
  rcases List.getElem?_eq_some.mp hi with ⟨hilt, hieq⟩
  rcases List.getElem?_eq_some.mp hk with ⟨hklt, hkeq⟩
  have hjlt : j < l.length := lt_trans hjk2 hklt
  have h1 := List.pairwise_iff_get.mp hp ⟨i, hilt⟩ ⟨j, hjlt⟩ hij2
  have h2 := List.pairwise_iff_get.mp hp ⟨j, hjlt⟩ ⟨k, hklt⟩ hjk2
  have hieq2 : l.get ⟨i, hilt⟩ = a := by
    rw [List.get_eq_getElem]
    exact hieq
  have hkeq2 : l.get ⟨k, hklt⟩ = a := by
    rw [List.get_eq_getElem]
    exact hkeq
  rw [hieq2] at h1
  rw [hkeq2] at h2
  have hja : a = l.get ⟨j, hjlt⟩ := hanti a (l.get ⟨j, hjlt⟩) h1 h2
  rw [List.getElem?_eq_some]
  refine ⟨hjlt, ?_⟩
  rw [List.get_eq_getElem] at hja
  exact hja.symm

lemma grouped_drop (l : List ℕ) (m : ℕ) (h : Grouped l) : Grouped (l.drop m) := by
  intro i j k a hij hjk hi hk
  rw [List.getElem?_drop] at hi hk ⊢
  exact h (m + i) (m + j) (m + k) a (by omega) (by omega) hi hk

lemma dropWhile_eq_drop {α : Type} (p : α → Bool) (l : List α) :
    l.dropWhile p = l.drop (l.takeWhile p).length := by
  induction l with
  | nil => rfl
  | cons a r ih =>
    by_cases h : p a
    · simp [List.dropWhile_cons, List.takeWhile_cons, h, ih]
    · simp [List.dropWhile_cons, List.takeWhile_cons, h]

lemma dropWhile_head_not {α : Type} (p : α → Bool) (l : List α) (a : α) (t : List α)
    (h : l.dropWhile p = a :: t) : p a = false := by
  induction l with
  | nil => exact absurd h (by simp)
  | cons b r ih =>
    rw [List.dropWhile_cons] at h
    by_cases hb : p b
    · rw [if_pos hb] at h
      exact ih h
    · rw [if_neg hb] at h
      injection h with h1 h2
      rw [← h1]
      exact Bool.eq_false_iff.mpr hb

lemma not_mem_dropWhile_beq (v : ℕ) (M : List ℕ) (hg : Grouped (v :: M)) :
    v ∉ M.dropWhile (· == v) := by
  intro hmem
  rcases List.mem_iff_getElem?.mp hmem with ⟨j, hj⟩
  cases hD : M.dropWhile (· == v) with
  | nil =>
    rw [hD] at hmem
    simp at hmem
  | cons a t =>
    have ha : (a == v) = false := dropWhile_head_not _ M a t hD
    have hane : ¬(a = v) := by simpa using ha
    apply hane
    have hdw := dropWhile_eq_drop (fun x => x == v) M
    have h0 : M[(M.takeWhile (fun x => x == v)).length]? = some a := by
      have hx : (M.dropWhile (fun x => x == v))[0]? = some a := by
        rw [hD]
        simp
      rw [hdw, List.getElem?_drop] at hx
      simpa using hx
    have hkj : M[(M.takeWhile (fun x => x == v)).length + j]? = some v := by
      rw [hdw, List.getElem?_drop] at hj
      exact hj
    have hcons0 : (v :: M)[0]? = some v := by simp
    have hconsk : (v :: M)[(M.takeWhile (fun x => x == v)).length + 1]? = some a := by
      simpa using h0
    have hconskj : (v :: M)[(M.takeWhile (fun x => x == v)).length + j + 1]? = some v := by
      simpa using hkj
    have hmid := hg 0 ((M.takeWhile (fun x => x == v)).length + 1)
      ((M.takeWhile (fun x => x == v)).length + j + 1) v (Nat.zero_le _) (by omega)
      hcons0 hconskj
    exact Option.some_inj.mp (hconsk.symm.trans hmid)

lemma destroyIds_spec (L : List ℕ) :
    Grouped L → (destroyIds L).Nodup ∧ ∀ id, id ∈ destroyIds L ↔ id ∈ L := by
  induction L using destroyIds.induct with
  | case1 =>
    intro _
    rw [destroyIds]
    exact ⟨List.nodup_nil, fun id => Iff.rfl⟩
  | case2 v rest ih =>
    intro hg
    have hgdrop : Grouped (rest.dropWhile (· == v)) := by
      rw [dropWhile_eq_drop]
      have : rest.drop (rest.takeWhile (· == v)).length =
          (v :: rest).drop ((rest.takeWhile (· == v)).length + 1) := rfl
      rw [this]
      exact grouped_drop _ _ hg
    rcases ih hgdrop with ⟨hnd, hmem⟩
    have hnotmem : v ∉ destroyIds (rest.dropWhile (· == v)) := by
      intro hv
      exact not_mem_dropWhile_beq v rest hg ((hmem v).mp hv)
    constructor
    · rw [destroyIds]
      exact List.Nodup.cons hnotmem hnd
    · intro id
      rw [destroyIds]
      constructor
      · intro hid
        rcases List.mem_cons.mp hid with rfl | hid2
        · exact List.mem_cons_self _ _
        · have := (hmem id).mp hid2
          exact List.mem_cons_of_mem _ ((List.dropWhile_sublist _).subset this)
      · intro hid
        rcases List.mem_cons.mp hid with rfl | hid2
        · exact List.mem_cons_self _ _
        · have hsplit := List.takeWhile_append_dropWhile (fun x => x == v) rest
          rw [← hsplit] at hid2
          rcases List.mem_append.mp hid2 with hid3 | hid4
          · have := List.mem_takeWhile_imp hid3
            simp only [beq_iff_eq] at this
            rw [this]
            exact List.mem_cons_self _ _
          · exact List.mem_cons_of_mem _ ((hmem id).mpr hid4)

lemma destroyAux_fst (l : List ImageData) :
    (destroyAux l).1 = destroyIds (l.map (·.dds)) := by
  induction l using destroyAux.induct with
  | case1 => simp [destroyAux, destroyIds]
  | case2 x rest ih =>
    have hcomm : (rest.dropWhile fun y => y.dds == x.dds).map (·.dds) =
        (rest.map (·.dds)).dropWhile (· == x.dds) := by
      rw [List.dropWhile_map]
      rfl
    simp only [destroyAux, List.map_cons, destroyIds]
    rw [ih, hcomm]

lemma destroyAux_snd (l : List ImageData) : (destroyAux l).2 = [] := by
  induction l using destroyAux.induct with
  | case1 => simp [destroyAux]
  | case2 x rest ih =>
    simp only [destroyAux]
    exact ih

/-- Claim C10: ownership contiguity invariant: in the images vector built
by `GatherSourceImages` all entries sharing a `DirectDrawSurface` pointer
are contiguous, and `DestroyImageArray` on that vector deletes each
distinct surface pointer exactly once (the deleted-pointer list has no
duplicates and covers exactly the pointers of the vector) and leaves the
vector empty. -/
theorem c10_ownership_contiguity (load : List Char → Option SurfaceInfo)
    (files : List (List Char)) (attrs0 : ImageAttrs) :
    Grouped ((GatherSourceImages load files attrs0).2.1.map (·.dds)) ∧
      (DestroyImageArray (GatherSourceImages load files attrs0).2.1).1.Nodup ∧
      (∀ id, id ∈ (DestroyImageArray (GatherSourceImages load files attrs0).2.1).1 ↔
        id ∈ (GatherSourceImages load files attrs0).2.1.map (·.dds)) ∧
      (DestroyImageArray (GatherSourceImages load files attrs0).2.1).2 = [] := by
  have hpw := gather_dds_pairwise load files attrs0
  have hg : Grouped ((GatherSourceImages load files attrs0).2.1.map (·.dds)) :=
    grouped_of_pairwise _ _ hpw (fun a b h1 h2 => le_antisymm h1 h2)
  have hrevpw : List.Pairwise (· ≥ ·)
      (((GatherSourceImages load files attrs0).2.1.map (·.dds)).reverse) :=
    List.pairwise_reverse.mpr hpw
  have hgrev : Grouped
      ((GatherSourceImages load files attrs0).2.1.reverse.map (·.dds)) := by
    rw [List.map_reverse]
    exact grouped_of_pairwise _ _ hrevpw (fun a b h1 h2 => le_antisymm h2 h1)
  have hspec := destroyIds_spec _ hgrev
  unfold DestroyImageArray
  rw [destroyAux_fst, destroyAux_snd]
  refine ⟨hg, hspec.1, ?_, rfl⟩
  intro id
  rw [hspec.2 id, List.map_reverse]
  exact List.mem_reverse
